import Mathlib

/-!
# SimpleVector: a verification development

Shallow embedding of `src/simple-vector/array_ptr.h` and
`src/simple-vector/simple_vector.h`.

Modelling conventions.

* In the definitions named after the source functions `size_t` is `Nat` and a block of
  any length can be allocated: they are the code as long as no size, product or pointer
  sum leaves the range of the target's arithmetic. `Resize`, `NewCapacity` and `PushBack`
  are given a second time, as `Resize_w64`, `NewCapacity_w64` and `PushBack_w64`, with the
  arithmetic of a 64-bit target (`size_t` and addresses wrap modulo `2 ^ 64`); the two
  versions are proved equal on sizes in range (`Resize_w64_eq`, `NewCapacity_w64_eq`,
  `PushBack_w64_eq`).
* A raw pointer `Type*` owned by an `ArrayPtr` is `Option (List α)`: `none` is `nullptr`,
  `some blk` points at the first element of an owned block holding `blk.length` elements.
* Iterators into a vector are offsets from `begin()` (natural numbers). Pointer
  arithmetic is plain offset arithmetic; only dereferencing is checked.
* Dereferencing outside the owned block, through `nullptr` or through a reference into a
  block that has been released is undefined behaviour. It is reported as
  `Fault.undefined_behaviour`.
* The standard algorithms are their element loops, `for (n = last - first; n > 0; --n)`:
  this is what runs for an element type that is not trivially copyable, and a range whose
  end precedes its start copies nothing. For a trivially copyable element type the
  library hands `last - first` to `memmove` instead; `Erase` is given a second time with
  that call, as `Erase_memmove` and `Erase_move_memmove`, and the two versions are proved
  equal at every position before `end()` (`Erase_memmove_eq`).
* An argument of type `const Type&` or `Type&&` is an `Arg`: a reference to an object
  outside the vector, or to an element of the vector the member is called on. It is read
  at the point where the source reads it.
* `new Type[n]` default-constructs its elements: each holds `default`, the value
  `Type()`. Moving an element is modelled as copying it (the moved-from element keeps
  its value).
* `operator==` of the element type is `BEq α`, `operator<` of the element type is `LT α`.
-/

namespace SimpleVec

/-- Ways in which a call can fail to produce a result. -/
inductive Fault where
  /-- access outside the owned block, or an invalid iterator range -/
  | undefined_behaviour
  /-- the exception `std::out_of_range` thrown by `At` -/
  | out_of_range
  /-- a failed `assert` -/
  | assertion_failed
  /-- the exception thrown by `new Type[n]` when the block cannot be allocated -/
  | bad_alloc
  deriving DecidableEq, Repr

/-- Result of a call that may fail. -/
abbrev Res (β : Type) : Type := Except Fault β

/-! ## array_ptr.h -/

/-- The class `ArrayPtr<Type>`: its only member is `raw_ptr_`. -/
structure ArrayPtr (α : Type) where
  raw_ptr_ : Option (List α)
  deriving DecidableEq, Repr

namespace ArrayPtr

variable {α : Type}

/-- `ArrayPtr() = default`: `raw_ptr_ = nullptr`. -/
def null : ArrayPtr α := ⟨none⟩

/-- `explicit ArrayPtr(size_t size)`:
`raw_ptr_ = (size == 0) ? nullptr : new Type[size]`. -/
def ofSize [Inhabited α] (size : Nat) : ArrayPtr α :=
  if size = 0 then ⟨none⟩ else ⟨some (List.replicate size default)⟩

/-- `ArrayPtr(size_t size, Type&& value)`:
`raw_ptr_(new Type[size]{})` followed by `raw_ptr_[0] = std::move(value)`. The store
to element 0 is outside the block when `size` is 0. -/
def ofSizeValue [Inhabited α] (size : Nat) (value : α) : Res (ArrayPtr α) :=
  let blk : List α := List.replicate size default
  if 0 < blk.length then .ok ⟨some (blk.set 0 value)⟩ else .error .undefined_behaviour

/-- `explicit ArrayPtr(Type *raw_ptr)`. -/
def ofRaw (raw_ptr : Option (List α)) : ArrayPtr α := ⟨raw_ptr⟩

/-- `Release()`: returns the raw pointer and leaves `nullptr` behind. -/
def Release (p : ArrayPtr α) : Option (List α) × ArrayPtr α := (p.raw_ptr_, ⟨none⟩)

/-- `Get()`. -/
def Get (p : ArrayPtr α) : Option (List α) := p.raw_ptr_

/-- `explicit operator bool()`: `raw_ptr_ != nullptr`. -/
def toBool (p : ArrayPtr α) : Bool := p.raw_ptr_.isSome

/-- `swap(ArrayPtr& other)`: returns the new `(this, other)`. -/
def swap (p other : ArrayPtr α) : ArrayPtr α × ArrayPtr α := (⟨other.raw_ptr_⟩, ⟨p.raw_ptr_⟩)

/-- `ArrayPtr(ArrayPtr&& other)`: `swap(other)` on a fresh `nullptr`; returns the new
object and what is left of `other`. -/
def move (other : ArrayPtr α) : ArrayPtr α × ArrayPtr α := swap null other

/-- The elements of the owned block; `nullptr` owns none. -/
def block (p : ArrayPtr α) : List α := p.raw_ptr_.getD []

/-- Reading `raw_ptr_[index]` (`operator[]` as an rvalue). -/
def read (p : ArrayPtr α) (index : Nat) : Res α :=
  match p.raw_ptr_ with
  | some blk =>
    match blk[index]? with
    | some x => .ok x
    | none => .error .undefined_behaviour
  | none => .error .undefined_behaviour

/-- The store `raw_ptr_[index] = x` (`operator[]` as an lvalue). -/
def write (p : ArrayPtr α) (index : Nat) (x : α) : Res (ArrayPtr α) :=
  match p.raw_ptr_ with
  | some blk =>
    if index < blk.length then .ok ⟨some (blk.set index x)⟩ else .error .undefined_behaviour
  | none => .error .undefined_behaviour

end ArrayPtr

/-! ## Standard algorithms used by simple_vector.h -/

section Algorithms

variable {α : Type}

/-- Loop of `std::copy` / `std::move` from one block into another:
`for (n = last - first; n > 0; --n) *d_first++ = *first++`. -/
def copy_loop (src : ArrayPtr α) : Nat → Nat → ArrayPtr α → Nat → Res (ArrayPtr α)
  | 0, _, dst, _ => .ok dst
  | n + 1, first, dst, d_first => do
    let x ← src.read first
    let dst ← dst.write d_first x
    copy_loop src n (first + 1) dst (d_first + 1)

/-- `std::copy(first, last, d_first)` and `std::move(first, last, d_first)` where the
source range lies in `src` and the destination in another block `dst`. The loop runs
`last - first` times, not at all when `last` precedes `first`. -/
def std_copy (src : ArrayPtr α) (first last : Nat) (dst : ArrayPtr α) (d_first : Nat) :
    Res (ArrayPtr α) :=
  copy_loop src (last - first) first dst d_first

/-- Loop of `std::copy` / `std::move` inside one block, front to back. -/
def copy_within_loop : Nat → ArrayPtr α → Nat → Nat → Res (ArrayPtr α)
  | 0, buf, _, _ => .ok buf
  | n + 1, buf, first, d_first => do
    let x ← buf.read first
    let buf ← buf.write d_first x
    copy_within_loop n buf (first + 1) (d_first + 1)

/-- `std::copy(first, last, d_first)` and `std::move(first, last, d_first)` with source
and destination in the same block. The loop runs `last - first` times, not at all when
`last` precedes `first`. -/
def std_copy_within (buf : ArrayPtr α) (first last d_first : Nat) : Res (ArrayPtr α) :=
  copy_within_loop (last - first) buf first d_first

/-- Loop of `std::copy_backward` / `std::move_backward` inside one block:
`n` times `*(--d_last) = *(--last)`. -/
def copy_backward_loop : Nat → ArrayPtr α → Nat → Nat → Res (ArrayPtr α)
  | 0, buf, _, _ => .ok buf
  | n + 1, buf, last, d_last => do
    let x ← buf.read (last - 1)
    let buf ← buf.write (d_last - 1) x
    copy_backward_loop n buf (last - 1) (d_last - 1)

/-- `std::copy_backward(first, last, d_last)` and `std::move_backward(first, last, d_last)`
inside one block. The loop runs `last - first` times, not at all when `last` precedes
`first`. -/
def std_copy_backward (buf : ArrayPtr α) (first last d_last : Nat) : Res (ArrayPtr α) :=
  copy_backward_loop (last - first) buf last d_last

/-- Loop `while (first < last) { *first = x; first++; }` with `n = last - first`
iterations; also the loop of `std::fill(first, last, x)`. -/
def fill_loop : Nat → ArrayPtr α → Nat → α → Res (ArrayPtr α)
  | 0, buf, _, _ => .ok buf
  | n + 1, buf, first, x => do
    let buf ← buf.write first x
    fill_loop n buf (first + 1) x

/-- Loop of the initializer-list constructor:
`for (auto i : init) { *(items_.Get() + s) = Type{i}; ++s; }`. -/
def init_loop : List α → ArrayPtr α → Nat → Res (ArrayPtr α)
  | [], buf, _ => .ok buf
  | i :: rest, buf, s => do
    let buf ← buf.write s i
    init_loop rest buf (s + 1)

/-- Loop of `std::equal(first1, last1, first2)` with `n = last1 - first1` and both
ranges starting at offset `i`. -/
def equal_loop [BEq α] (a b : ArrayPtr α) : Nat → Nat → Res Bool
  | 0, _ => .ok true
  | n + 1, i => do
    let x ← a.read i
    let y ← b.read i
    if x == y then equal_loop a b n (i + 1) else .ok false

/-- Loop of `std::lexicographical_compare(first1, last1, first2, last2)`; `n1` and `n2`
are the numbers of elements left in the two ranges, `i` the common offset. -/
def lexicographical_compare_loop [LT α] [DecidableRel (fun (x y : α) => x < y)]
    (a b : ArrayPtr α) : Nat → Nat → Nat → Res Bool
  | 0, n2, _ => .ok (decide (n2 ≠ 0))
  | _ + 1, 0, _ => .ok false
  | n1 + 1, n2 + 1, i => do
    let x ← a.read i
    let y ← b.read i
    if x < y then .ok true
    else if y < x then .ok false
    else lexicographical_compare_loop a b n1 n2 (i + 1)

end Algorithms

/-! ## simple_vector.h -/

/-- The class `ReserveProxyObj`. -/
structure ReserveProxyObj where
  capacity_ : Nat
  deriving DecidableEq, Repr

/-- The free function `Reserve(size_t capacity_to_reserve)`. -/
def Reserve (capacity_to_reserve : Nat) : ReserveProxyObj := ⟨capacity_to_reserve⟩

/-- An argument passed by reference (`const Type&` or `Type&&`) to a member function of a
vector. -/
inductive Arg (α : Type) where
  /-- the argument refers to an object that is not stored in the vector -/
  | value (x : α)
  /-- the argument refers to the element `items_[j]` of the vector the member is called
  on, as in `v.PushBack(v[j])` -/
  | element (j : Nat)
  deriving DecidableEq, Repr

namespace Arg

variable {α : Type}

/-- Reading the argument while the vector owns `items`, the block that was owned when the
reference was formed (its elements may have been overwritten since). -/
def get (a : Arg α) (items : ArrayPtr α) : Res α :=
  match a with
  | value x => .ok x
  | element j => items.read j

/-- Reading the argument after `NewCapacity()` has replaced and released the block that
was owned when the reference was formed: a reference into that block dangles. -/
def get_released (a : Arg α) : Res α :=
  match a with
  | value x => .ok x
  | element _ => .error .undefined_behaviour

end Arg

/-- The class `SimpleVector<Type>`: members `size_`, `capacity_`, `items_`. -/
structure SimpleVector (α : Type) where
  size_ : Nat
  capacity_ : Nat
  items_ : ArrayPtr α
  deriving DecidableEq, Repr

namespace SimpleVector

variable {α : Type}

/-- `SimpleVector() noexcept = default`: `size_ = 0`, `capacity_ = 0`, `items_{}`. -/
def empty : SimpleVector α := ⟨0, 0, ArrayPtr.null⟩

/-- `SimpleVector(ReserveProxyObj capacity)`: only `capacity_` is assigned; `size_` and
`items_` keep their default member initializers. -/
def ofReserve (capacity : ReserveProxyObj) : SimpleVector α :=
  ⟨0, capacity.capacity_, ArrayPtr.null⟩

/-- `SimpleVector(size_t size, const Type& value)`:
`size_(size), capacity_(size), items_(size)` then `std::fill` over `[0, size_)`. -/
def ofSizeValue [Inhabited α] (size : Nat) (value : α) : Res (SimpleVector α) := do
  let items ← fill_loop size (ArrayPtr.ofSize size) 0 value
  pure ⟨size, size, items⟩

/-- `explicit SimpleVector(size_t size)`: delegates to `SimpleVector(size, Type())`. -/
def ofSize [Inhabited α] (size : Nat) : Res (SimpleVector α) :=
  ofSizeValue size default

/-- `SimpleVector(std::initializer_list<Type> init)`. -/
def ofList [Inhabited α] (init : List α) : Res (SimpleVector α) := do
  let items ← init_loop init (ArrayPtr.ofSize init.length) 0
  pure ⟨init.length, init.length, items⟩

/-- `swap(SimpleVector& other)`: returns the new `(this, other)`. -/
def swap (v other : SimpleVector α) : SimpleVector α × SimpleVector α :=
  let (items, other_items) := ArrayPtr.swap v.items_ other.items_
  (⟨other.size_, other.capacity_, items⟩, ⟨v.size_, v.capacity_, other_items⟩)

/-- Copy constructor `SimpleVector(const SimpleVector& other)`. -/
def copy [Inhabited α] (other : SimpleVector α) : Res (SimpleVector α) := do
  let tmp ← ofSize other.capacity_
  let tmp_items ← std_copy other.items_ 0 other.size_ tmp.items_ 0
  let (v, _) := swap empty ⟨tmp.size_, tmp.capacity_, tmp_items⟩
  pure ⟨other.size_, v.capacity_, v.items_⟩

/-- Move constructor `SimpleVector(SimpleVector&& other)`: returns the new object and
what is left of `other`. -/
def move (other : SimpleVector α) : SimpleVector α × SimpleVector α :=
  swap empty other

/-- Copy assignment `operator=(const SimpleVector& rhs)` when `this != &rhs`. -/
def assign [Inhabited α] (v rhs : SimpleVector α) : Res (SimpleVector α) := do
  let rhs_copy ← copy rhs
  let (v, _) := swap v rhs_copy
  pure ⟨rhs.size_, v.capacity_, v.items_⟩

/-- Copy assignment `operator=(const SimpleVector& rhs)` when `this == &rhs`: only
`size_ = rhs.size_` runs. -/
def assign_self (v : SimpleVector α) : SimpleVector α :=
  ⟨v.size_, v.capacity_, v.items_⟩

/-- The method `Reserve(size_t new_capacity)`. -/
def Reserve [Inhabited α] (v : SimpleVector α) (new_capacity : Nat) : Res (SimpleVector α) :=
  if v.capacity_ = 0 then do
    let tmp ← ofSize new_capacity
    let (v, _) := swap v tmp
    pure ⟨0, v.capacity_, v.items_⟩
  else if v.capacity_ < new_capacity then do
    let tmp ← ofSize new_capacity
    let tmp_items ← std_copy v.items_ 0 v.size_ tmp.items_ 0
    let size := v.size_
    let (v, _) := swap v ⟨tmp.size_, tmp.capacity_, tmp_items⟩
    pure ⟨size, v.capacity_, v.items_⟩
  else pure v

/-- `GetSize()`. -/
def GetSize (v : SimpleVector α) : Nat := v.size_

/-- `GetCapacity()`. -/
def GetCapacity (v : SimpleVector α) : Nat := v.capacity_

/-- `IsEmpty()`. -/
def IsEmpty (v : SimpleVector α) : Bool := decide (v.size_ = 0)

/-- `operator[](size_t index)`: `items_[index]`, unchecked by the vector. -/
def index (v : SimpleVector α) (i : Nat) : Res α := v.items_.read i

/-- `At(size_t index)`, both overloads. -/
def At (v : SimpleVector α) (i : Nat) : Res α :=
  if i ≥ v.size_ then .error .out_of_range else v.items_.read i

/-- `Clear()`. -/
def Clear (v : SimpleVector α) : SimpleVector α := ⟨0, v.capacity_, v.items_⟩

/-- `Resize(size_t new_size)`. -/
def Resize [Inhabited α] (v : SimpleVector α) (new_size : Nat) : Res (SimpleVector α) :=
  if v.size_ < new_size then
    if new_size ≤ v.capacity_ then do
      let items ← fill_loop (new_size - v.size_) v.items_ v.size_ default
      pure ⟨new_size, v.capacity_, items⟩
    else do
      let new_capacity := max new_size (v.capacity_ * 2)
      let dist := new_size
      let tmp_vector ← ArrayPtr.ofSizeValue dist default
      let tmp_vector ← std_copy v.items_ 0 v.size_ tmp_vector 0
      let (_, items) := ArrayPtr.swap tmp_vector v.items_
      pure ⟨new_size, new_capacity, items⟩
  else pure ⟨new_size, v.capacity_, v.items_⟩

/-- `NewCapacity()`. -/
def NewCapacity [Inhabited α] (v : SimpleVector α) : Res (SimpleVector α) := do
  let new_capacity := if v.capacity_ = 0 then 1 else v.capacity_ * 2
  let tmp_vector : ArrayPtr α := ArrayPtr.ofSize new_capacity
  let tmp_vector ← std_copy v.items_ 0 v.size_ tmp_vector 0
  let (_, items) := ArrayPtr.swap tmp_vector v.items_
  pure ⟨v.size_, new_capacity, items⟩

/-- `PushBack(const Type& item)`: `item` is read by the assignment `items_[size_] = item`,
in the second branch after `NewCapacity()`. -/
def PushBack [Inhabited α] (v : SimpleVector α) (item : Arg α) : Res (SimpleVector α) :=
  if v.size_ < v.capacity_ then do
    let x ← item.get v.items_
    let items ← v.items_.write v.size_ x
    pure ⟨v.size_ + 1, v.capacity_, items⟩
  else do
    let v ← NewCapacity v
    let x ← item.get_released
    let items ← v.items_.write v.size_ x
    pure ⟨v.size_ + 1, v.capacity_, items⟩

/-- `PushBack(Type&& item)`: as the other overload, `item` is read by the assignment. -/
def PushBack_move [Inhabited α] (v : SimpleVector α) (item : Arg α) : Res (SimpleVector α) :=
  if v.size_ < v.capacity_ then do
    let x ← item.get v.items_
    let items ← v.items_.write v.size_ x
    pure ⟨v.size_ + 1, v.capacity_, items⟩
  else do
    let v ← NewCapacity v
    let x ← item.get_released
    let items ← v.items_.write v.size_ x
    pure ⟨v.size_ + 1, v.capacity_, items⟩

/-- `Insert(ConstIterator pos, const Type& value)`; `pos` is the offset of the iterator
from `begin()`. `value` is read by the assignment `items_[to_pos] = value`, after the
elements have been shifted and, in the second branch, after `NewCapacity()`. Returns the
vector and the offset of the returned iterator. -/
def Insert [Inhabited α] (v : SimpleVector α) (pos : Nat) (value : Arg α) :
    Res (SimpleVector α × Nat) :=
  let to_pos := pos
  if v.size_ < v.capacity_ then do
    let items ← std_copy_backward v.items_ to_pos v.size_ (v.size_ + 1)
    let x ← value.get items
    let items ← items.write to_pos x
    pure (⟨v.size_ + 1, v.capacity_, items⟩, to_pos)
  else do
    let v ← NewCapacity v
    let items ← std_copy_backward v.items_ to_pos v.size_ (v.size_ + 1)
    let x ← value.get_released
    let items ← items.write to_pos x
    pure (⟨v.size_ + 1, v.capacity_, items⟩, to_pos)

/-- `Insert(Iterator pos, Type&& value)`, which first asserts
`pos >= begin() && pos <= end()`. -/
def Insert_move [Inhabited α] (v : SimpleVector α) (pos : Nat) (value : Arg α) :
    Res (SimpleVector α × Nat) :=
  if ¬ (pos ≥ 0 ∧ pos ≤ v.size_) then .error .assertion_failed
  else
    let to_pos := pos
    if v.size_ < v.capacity_ then do
      let items ← std_copy_backward v.items_ to_pos v.size_ (v.size_ + 1)
      let x ← value.get items
      let items ← items.write to_pos x
      pure (⟨v.size_ + 1, v.capacity_, items⟩, to_pos)
    else do
      let v ← NewCapacity v
      let items ← std_copy_backward v.items_ to_pos v.size_ (v.size_ + 1)
      let x ← value.get_released
      let items ← items.write to_pos x
      pure (⟨v.size_ + 1, v.capacity_, items⟩, to_pos)

/-- `PopBack()`. -/
def PopBack (v : SimpleVector α) : SimpleVector α :=
  if v.size_ ≠ 0 then ⟨v.size_ - 1, v.capacity_, v.items_⟩ else v

/-- `Erase(ConstIterator pos)`; `pos` is the offset of the iterator from `begin()`.
Returns the vector and the offset of the returned iterator. -/
def Erase (v : SimpleVector α) (pos : Nat) : Res (SimpleVector α × Nat) :=
  if 0 < v.size_ ∧ pos ≤ v.size_ then do
    let items ← std_copy_within v.items_ (pos + 1) v.size_ pos
    pure (⟨v.size_ - 1, v.capacity_, items⟩, pos)
  else pure (v, pos)

/-- `Erase(Iterator pos)`, which uses `std::move` where the other overload uses
`std::copy`. -/
def Erase_move (v : SimpleVector α) (pos : Nat) : Res (SimpleVector α × Nat) :=
  if 0 < v.size_ ∧ pos ≤ v.size_ then do
    let items ← std_copy_within v.items_ (pos + 1) v.size_ pos
    pure (⟨v.size_ - 1, v.capacity_, items⟩, pos)
  else pure (v, pos)

/-- `operator==`: `lhs.GetSize() == rhs.GetSize() && std::equal(...)`. -/
def eq [BEq α] (lhs rhs : SimpleVector α) : Res Bool :=
  if lhs.GetSize = rhs.GetSize then equal_loop lhs.items_ rhs.items_ lhs.size_ 0
  else .ok false

/-- `operator!=`: `!(lhs == rhs)`. -/
def ne [BEq α] (lhs rhs : SimpleVector α) : Res Bool := do
  let r ← eq lhs rhs
  pure (!r)

/-- `operator<`: `std::lexicographical_compare` over the two vectors. -/
def lt [LT α] [DecidableRel (fun (x y : α) => x < y)] (lhs rhs : SimpleVector α) : Res Bool :=
  lexicographical_compare_loop lhs.items_ rhs.items_ lhs.size_ rhs.size_ 0

/-- `operator<=`: `lhs < rhs || lhs == rhs`. -/
def le [BEq α] [LT α] [DecidableRel (fun (x y : α) => x < y)]
    (lhs rhs : SimpleVector α) : Res Bool := do
  let l ← lt lhs rhs
  if l then pure true else eq lhs rhs

/-- `operator>`: `std::lexicographical_compare` with the operands exchanged. -/
def gt [LT α] [DecidableRel (fun (x y : α) => x < y)] (lhs rhs : SimpleVector α) : Res Bool :=
  lexicographical_compare_loop rhs.items_ lhs.items_ rhs.size_ lhs.size_ 0

/-- `operator>=`: `lhs > rhs || lhs == rhs`. -/
def ge [BEq α] [LT α] [DecidableRel (fun (x y : α) => x < y)]
    (lhs rhs : SimpleVector α) : Res Bool := do
  let g ← gt lhs rhs
  if g then pure true else eq lhs rhs

/-! ### Growth with the arithmetic of a 64-bit target

`size_t` has `2 ^ 64` values and so have addresses. For an element type of `sizeof_Type`
bytes (a power of two) the pointer `p + n` lies `n % (2 ^ 64 / sizeof_Type)` elements
after `p`, and `(p + n) - p` is that number read as a signed `ptrdiff_t`. Pointers into
one block are compared by their offsets. `new Type[n]` throws when the block would reach
`2 ^ 63` bytes and is assumed to succeed below that. -/

/-- The value of a sum or product computed in `size_t`. -/
def to_size_t (n : Nat) : Nat := n % 2 ^ 64

/-- Number of elements after which a `Type*` is back at the same address. -/
def ptr_period (sizeof_Type : Nat) : Nat := 2 ^ 64 / sizeof_Type

/-- Offset in elements of the pointer `p + n` from `p`. -/
def ptr_add (sizeof_Type n : Nat) : Nat := n % ptr_period sizeof_Type

/-- The difference `(p + n) - p`, as computed by `std::distance(p, p + n)` or by the loop
of a standard algorithm, when it is not negative (byte offset below `2 ^ 63`); `none`
when it is negative. -/
def ptr_diff (sizeof_Type n : Nat) : Option Nat :=
  if 2 * ptr_add sizeof_Type n < ptr_period sizeof_Type then some (ptr_add sizeof_Type n)
  else none

/-- `ArrayPtr(size_t size)` on the target: `new Type[size]` throws for a block of `2 ^ 63`
bytes or more. -/
def ofSize_w64 [Inhabited α] (sizeof_Type size : Nat) : Res (ArrayPtr α) :=
  if 2 ^ 63 ≤ size * sizeof_Type then .error .bad_alloc else .ok (ArrayPtr.ofSize size)

/-- `ArrayPtr(size_t size, Type&& value)` on the target: `new Type[size]{}` throws for a
block of `2 ^ 63` bytes or more. -/
def ofSizeValue_w64 [Inhabited α] (sizeof_Type size : Nat) (value : α) : Res (ArrayPtr α) :=
  if 2 ^ 63 ≤ size * sizeof_Type then .error .bad_alloc else ArrayPtr.ofSizeValue size value

/-- `Resize(size_t new_size)` on the target. `dist` is a pointer difference; a negative
`dist` becomes a `size_t` of at least `2 ^ 63`, for which the allocation throws. -/
def Resize_w64 [Inhabited α] (sizeof_Type : Nat) (v : SimpleVector α) (new_size : Nat) :
    Res (SimpleVector α) :=
  if v.size_ < new_size then
    if new_size ≤ v.capacity_ then do
      let first := ptr_add sizeof_Type v.size_
      let last := ptr_add sizeof_Type new_size
      let items ← fill_loop (last - first) v.items_ first default
      pure ⟨new_size, v.capacity_, items⟩
    else do
      let new_capacity := max new_size (to_size_t (v.capacity_ * 2))
      match ptr_diff sizeof_Type new_size with
      | none => .error .bad_alloc
      | some dist => do
        let tmp_vector ← ofSizeValue_w64 sizeof_Type dist default
        let tmp_vector ←
          copy_loop v.items_ ((ptr_diff sizeof_Type v.size_).getD 0) 0 tmp_vector 0
        let (_, items) := ArrayPtr.swap tmp_vector v.items_
        pure ⟨new_size, new_capacity, items⟩
  else pure ⟨new_size, v.capacity_, v.items_⟩

/-- `NewCapacity()` on the target: `capacity_ * 2` is computed in `size_t`, and
`std::move(begin(), end(), ...)` runs `end() - begin()` times. -/
def NewCapacity_w64 [Inhabited α] (sizeof_Type : Nat) (v : SimpleVector α) :
    Res (SimpleVector α) := do
  let new_capacity := if v.capacity_ = 0 then 1 else to_size_t (v.capacity_ * 2)
  let tmp_vector ← ofSize_w64 sizeof_Type new_capacity
  let tmp_vector ←
    copy_loop v.items_ ((ptr_diff sizeof_Type v.size_).getD 0) 0 tmp_vector 0
  let (_, items) := ArrayPtr.swap tmp_vector v.items_
  pure ⟨v.size_, new_capacity, items⟩

/-- `PushBack(const Type& item)` on the target: `items_[size_]` is the element at the
address `items_.Get() + size_`, and `++size_` is computed in `size_t`. -/
def PushBack_w64 [Inhabited α] (sizeof_Type : Nat) (v : SimpleVector α) (item : Arg α) :
    Res (SimpleVector α) :=
  if v.size_ < v.capacity_ then do
    let x ← item.get v.items_
    let items ← v.items_.write (ptr_add sizeof_Type v.size_) x
    pure ⟨to_size_t (v.size_ + 1), v.capacity_, items⟩
  else do
    let v ← NewCapacity_w64 sizeof_Type v
    let x ← item.get_released
    let items ← v.items_.write (ptr_add sizeof_Type v.size_) x
    pure ⟨to_size_t (v.size_ + 1), v.capacity_, items⟩

/-! ### Removal for a trivially copyable element type

For a trivially copyable `Type` the library does not run the element loop of `std::copy`
and `std::move`: it computes `_Num = last - first` as a `ptrdiff_t` and, unless `_Num` is
zero, calls `memmove(d_first, first, sizeof(Type) * _Num)` with the product converted to
`size_t`. -/

/-- The call `memmove(p + d_first, p + first, count)` on the block at `p`, with `count` in
bytes: moves `count / sizeof_Type` elements, front to back when the destination precedes
the source and back to front otherwise. Undefined when the source range or the destination
range does not lie inside the block. -/
def memmove_within (sizeof_Type : Nat) (buf : ArrayPtr α) (d_first first count : Nat) :
    Res (ArrayPtr α) :=
  let len := buf.block.length * sizeof_Type
  if first * sizeof_Type + count ≤ len ∧ d_first * sizeof_Type + count ≤ len then
    if d_first ≤ first then copy_within_loop (count / sizeof_Type) buf first d_first
    else
      copy_backward_loop (count / sizeof_Type) buf (first + count / sizeof_Type)
        (d_first + count / sizeof_Type)
  else .error .undefined_behaviour

/-- `std::copy(first, last, d_first)` and `std::move(first, last, d_first)` inside one block
for a trivially copyable `Type`:
`_Num = last - first; if (_Num) memmove(d_first, first, sizeof(Type) * _Num);`. -/
def std_copy_within_memmove (sizeof_Type : Nat) (buf : ArrayPtr α) (first last d_first : Nat) :
    Res (ArrayPtr α) :=
  let num : Int := (last : Int) - (first : Int)
  if num = 0 then .ok buf
  else memmove_within sizeof_Type buf d_first first (((sizeof_Type : Int) * num) % 2 ^ 64).toNat

/-- `Erase(ConstIterator pos)` for a trivially copyable `Type`. -/
def Erase_memmove (sizeof_Type : Nat) (v : SimpleVector α) (pos : Nat) :
    Res (SimpleVector α × Nat) :=
  if 0 < v.size_ ∧ pos ≤ v.size_ then do
    let items ← std_copy_within_memmove sizeof_Type v.items_ (pos + 1) v.size_ pos
    pure (⟨v.size_ - 1, v.capacity_, items⟩, pos)
  else pure (v, pos)

/-- `Erase(Iterator pos)` for a trivially copyable `Type`. -/
def Erase_move_memmove (sizeof_Type : Nat) (v : SimpleVector α) (pos : Nat) :
    Res (SimpleVector α × Nat) :=
  if 0 < v.size_ ∧ pos ≤ v.size_ then do
    let items ← std_copy_within_memmove sizeof_Type v.items_ (pos + 1) v.size_ pos
    pure (⟨v.size_ - 1, v.capacity_, items⟩, pos)
  else pure (v, pos)

/-! ### Specification vocabulary -/

/-- The logical contents: the elements at positions `[0, size_)` of the owned block. -/
def toList (v : SimpleVector α) : List α := v.items_.block.take v.size_

/-- Well-formed: `size_ ≤ capacity_` and the owned block holds exactly `capacity_`
elements. -/
def WF (v : SimpleVector α) : Prop :=
  v.size_ ≤ v.capacity_ ∧ v.items_.block.length = v.capacity_

instance (v : SimpleVector α) : Decidable (WF v) :=
  inferInstanceAs (Decidable (v.size_ ≤ v.capacity_ ∧ v.items_.block.length = v.capacity_))

/-- The vectors a program can hold while every size stays in the range of the target's
arithmetic: the result of any constructor followed by any finite sequence of successful
member calls. A call that runs into undefined behaviour or throws produces no vector. -/
inductive Reachable [Inhabited α] : SimpleVector α → Prop
  | ctor_default : Reachable empty
  | ctor_size (n : Nat) (r : SimpleVector α) : ofSize n = .ok r → Reachable r
  | ctor_size_value (n : Nat) (x : α) (r : SimpleVector α) :
      ofSizeValue n x = .ok r → Reachable r
  | ctor_list (l : List α) (r : SimpleVector α) : ofList l = .ok r → Reachable r
  | ctor_reserve (n : Nat) : Reachable (ofReserve (SimpleVec.Reserve n))
  | ctor_copy (o r : SimpleVector α) : Reachable o → copy o = .ok r → Reachable r
  | ctor_move (o : SimpleVector α) : Reachable o → Reachable (move o).1
  | moved_from (o : SimpleVector α) : Reachable o → Reachable (move o).2
  | call_Reserve (v : SimpleVector α) (n : Nat) (r : SimpleVector α) :
      Reachable v → v.Reserve n = .ok r → Reachable r
  | call_Resize (v : SimpleVector α) (n : Nat) (r : SimpleVector α) :
      Reachable v → v.Resize n = .ok r → Reachable r
  | call_PushBack (v : SimpleVector α) (x : Arg α) (r : SimpleVector α) :
      Reachable v → v.PushBack x = .ok r → Reachable r
  | call_PushBack_move (v : SimpleVector α) (x : Arg α) (r : SimpleVector α) :
      Reachable v → v.PushBack_move x = .ok r → Reachable r
  | call_PopBack (v : SimpleVector α) : Reachable v → Reachable v.PopBack
  | call_Clear (v : SimpleVector α) : Reachable v → Reachable v.Clear
  | call_swap (v other : SimpleVector α) :
      Reachable v → Reachable other → Reachable (swap v other).1
  | swapped_with (v other : SimpleVector α) :
      Reachable v → Reachable other → Reachable (swap v other).2
  | call_assign (v rhs r : SimpleVector α) :
      Reachable v → Reachable rhs → assign v rhs = .ok r → Reachable r
  | call_assign_self (v : SimpleVector α) : Reachable v → Reachable (assign_self v)
  | call_Insert (v : SimpleVector α) (pos : Nat) (x : Arg α) (r : SimpleVector α) (it : Nat) :
      Reachable v → pos ≤ v.size_ → v.Insert pos x = .ok (r, it) → Reachable r
  | call_Insert_move (v : SimpleVector α) (pos : Nat) (x : Arg α) (r : SimpleVector α)
      (it : Nat) :
      Reachable v → pos ≤ v.size_ → v.Insert_move pos x = .ok (r, it) → Reachable r
  | call_Erase (v : SimpleVector α) (pos : Nat) (r : SimpleVector α) (it : Nat) :
      Reachable v → pos < v.size_ → v.Erase pos = .ok (r, it) → Reachable r
  | call_Erase_move (v : SimpleVector α) (pos : Nat) (r : SimpleVector α) (it : Nat) :
      Reachable v → pos < v.size_ → v.Erase_move pos = .ok (r, it) → Reachable r

end SimpleVector

/-! ### Concrete vectors used in the examples -/

/-- `SimpleVector<int>{1, 2, 3, 4}`. -/
def ex_1234 : SimpleVector Nat := ⟨4, 4, ⟨some [1, 2, 3, 4]⟩⟩

/-- `SimpleVector<int>{1, 2, 3, 4}` after `Resize(5)`. -/
def ex_1234_resized : SimpleVector Nat := ⟨5, 8, ⟨some [1, 2, 3, 4, 0]⟩⟩

/-- `SimpleVector<int>{1, 2, 3, 4}` after `Reserve(5)`. -/
def ex_1234_reserved : SimpleVector Nat := ⟨4, 5, ⟨some [1, 2, 3, 4, 0]⟩⟩

/-- `SimpleVector<int>{1, 2, 3}`. -/
def ex_123 : SimpleVector Nat := ⟨3, 3, ⟨some [1, 2, 3]⟩⟩

/-- `SimpleVector<int>{7, 8}`. -/
def ex_78 : SimpleVector Nat := ⟨2, 2, ⟨some [7, 8]⟩⟩

/-- `SimpleVector<int>{7, 8}` after `Resize(0)`. -/
def ex_78_cleared : SimpleVector Nat := ⟨0, 2, ⟨some [7, 8]⟩⟩

/-- `SimpleVector<int>{1, 2, 3}` after `Reserve(4)`. -/
def ex_123_reserved : SimpleVector Nat := ⟨3, 4, ⟨some [1, 2, 3, 0]⟩⟩

/-- `sizeof(int)` on the target. -/
def sizeof_int : Nat := 4

/-- A default-constructed `SimpleVector<int>` after `Resize(2 ^ 63 + 2)` on the target. -/
def ex_wrapped : SimpleVector Nat := ⟨2 ^ 63 + 2, 2 ^ 63 + 2, ⟨some [0, 0]⟩⟩

/-- The vector `ex_wrapped` after `PushBack(1)` on the target. -/
def ex_wrapped_pushed : SimpleVector Nat := ⟨2 ^ 63 + 3, 4, ⟨some [0, 0, 1, 0]⟩⟩

/-- `SimpleVector<int>{7, 8}` after `Resize(2 ^ 62 + 3)` on the target. -/
def ex_78_wrapped : SimpleVector Nat := ⟨2 ^ 62 + 3, 2 ^ 62 + 3, ⟨some [7, 8, 0]⟩⟩

/-- `SimpleVector<std::string>{"a", "b", "c"}`. -/
def ex_abc : SimpleVector String := ⟨3, 3, ⟨some ["a", "b", "c"]⟩⟩

end SimpleVec

/-! ## Theorems -/

namespace SimpleVec

open SimpleVector

variable {α : Type}

/-! ### The result monad -/

theorem ok_bind {β γ : Type} (a : β) (f : β → Res γ) : (Except.ok a >>= f) = f a := rfl

theorem error_bind {β γ : Type} (e : Fault) (f : β → Res γ) :
    ((Except.error e : Res β) >>= f) = Except.error e := rfl

theorem pure_eq_ok {β : Type} (a : β) : (pure a : Res β) = Except.ok a := rfl

/-! ### Owned blocks: reads and stores -/

theorem block_some (blk : List α) : (ArrayPtr.mk (some blk)).block = blk := rfl

theorem block_ofSize [Inhabited α] (n : Nat) :
    (ArrayPtr.ofSize n : ArrayPtr α).block = List.replicate n default := by
  unfold ArrayPtr.ofSize
  by_cases h : n = 0
  · subst h; simp [ArrayPtr.block]
  · simp [h, ArrayPtr.block]

theorem read_block (p : ArrayPtr α) (i : Nat) (x : α) (h : p.block[i]? = some x) :
    p.read i = Except.ok x := by
  unfold ArrayPtr.read
  cases hp : p.raw_ptr_ with
  | none => simp [ArrayPtr.block, hp] at h
  | some blk =>
    simp only [ArrayPtr.block, hp, Option.getD_some] at h
    simp [h]

theorem write_block (p : ArrayPtr α) (i : Nat) (x : α) (h : i < p.block.length) :
    ∃ r, p.write i x = Except.ok r ∧ r.block = p.block.set i x := by
  unfold ArrayPtr.write
  cases hp : p.raw_ptr_ with
  | none => simp [ArrayPtr.block, hp] at h
  | some blk =>
    simp only [ArrayPtr.block, hp, Option.getD_some] at h
    exact ⟨⟨some (blk.set i x)⟩, by simp [h], by simp [ArrayPtr.block, hp]⟩

/-! ### What the loops of the standard algorithms leave in a block -/

theorem fill_loop_block (n : Nat) (x : α) :
    ∀ (buf : ArrayPtr α) (first : Nat), first + n ≤ buf.block.length →
      ∃ r, fill_loop n buf first x = Except.ok r ∧ r.block.length = buf.block.length ∧
        ∀ i, r.block[i]? =
          if first ≤ i ∧ i < first + n then some x else buf.block[i]? := by
  induction n with
  | zero =>
    intro buf first _
    refine ⟨buf, rfl, rfl, fun i => ?_⟩
    rw [if_neg (by omega)]
  | succ n ih =>
    intro buf first h
    obtain ⟨b1, hw, hb1⟩ := write_block buf first x (by omega)
    obtain ⟨r, hr, hlen, hget⟩ := ih b1 (first + 1) (by rw [hb1, List.length_set]; omega)
    refine ⟨r, ?_, ?_, fun i => ?_⟩
    · simp only [fill_loop, hw, ok_bind, hr]
    · rw [hlen, hb1, List.length_set]
    · rw [hget, hb1, List.getElem?_set]
      by_cases h1 : first = i
      · subst h1
        rw [if_neg (by omega), if_pos rfl, if_pos (by omega), if_pos (by omega)]
      · by_cases h2 : first + 1 ≤ i ∧ i < first + 1 + n
        · rw [if_pos h2, if_pos (by omega)]
        · rw [if_neg h2, if_neg h1, if_neg (by omega)]

theorem set_getElem_opt (l : List α) (d : Nat) (x : α) (hd : d < l.length) (j : Nat) :
    (l.set d x)[j]? = if d = j then some x else l[j]? := by
  rw [List.getElem?_set]
  by_cases h : d = j
  · rw [if_pos h, if_pos h, if_pos hd]
  · rw [if_neg h, if_neg h]

theorem copy_loop_block (src : ArrayPtr α) (n : Nat) :
    ∀ (first : Nat) (dst : ArrayPtr α) (d_first : Nat),
      first + n ≤ src.block.length → d_first + n ≤ dst.block.length →
      ∃ r, copy_loop src n first dst d_first = Except.ok r ∧
        r.block.length = dst.block.length ∧
        ∀ i, r.block[i]? =
          if d_first ≤ i ∧ i < d_first + n then src.block[first + (i - d_first)]?
          else dst.block[i]? := by
  induction n with
  | zero =>
    intro first dst d_first _ _
    refine ⟨dst, rfl, rfl, fun i => ?_⟩
    rw [if_neg (by omega)]
  | succ n ih =>
    intro first dst d_first h1 h2
    have hf : first < src.block.length := by omega
    have hx : src.block[first]? = some src.block[first] := List.getElem?_eq_getElem hf
    obtain ⟨b1, hw, hb1⟩ := write_block dst d_first src.block[first] (by omega)
    have hb : ∀ j, b1.block[j]? = if d_first = j then src.block[first]? else dst.block[j]? := by
      intro j; rw [hb1, set_getElem_opt _ _ _ (by omega), hx]
    obtain ⟨r, hr, hlen, hget⟩ :=
      ih (first + 1) b1 (d_first + 1) (by omega) (by rw [hb1, List.length_set]; omega)
    refine ⟨r, ?_, ?_, fun i => ?_⟩
    · simp only [copy_loop, read_block _ _ _ hx, hw, ok_bind, hr]
    · rw [hlen, hb1, List.length_set]
    · rw [hget]
      by_cases h4 : d_first + 1 ≤ i ∧ i < d_first + 1 + n
      · rw [if_pos h4, if_pos (by omega)]
        have : first + 1 + (i - (d_first + 1)) = first + (i - d_first) := by omega
        rw [this]
      · rw [if_neg h4, hb]
        by_cases h3 : d_first = i
        · have : first + (i - d_first) = first := by omega
          rw [if_pos h3, if_pos (by omega), this]
        · rw [if_neg h3, if_neg (by omega)]

theorem copy_within_loop_block (n : Nat) :
    ∀ (buf : ArrayPtr α) (first d_first : Nat),
      d_first ≤ first → first + n ≤ buf.block.length →
      ∃ r, copy_within_loop n buf first d_first = Except.ok r ∧
        r.block.length = buf.block.length ∧
        ∀ i, r.block[i]? =
          if d_first ≤ i ∧ i < d_first + n then buf.block[first + (i - d_first)]?
          else buf.block[i]? := by
  induction n with
  | zero =>
    intro buf first d_first _ _
    refine ⟨buf, rfl, rfl, fun i => ?_⟩
    rw [if_neg (by omega)]
  | succ n ih =>
    intro buf first d_first h1 h2
    have hf : first < buf.block.length := by omega
    have hx : buf.block[first]? = some buf.block[first] := List.getElem?_eq_getElem hf
    obtain ⟨b1, hw, hb1⟩ := write_block buf d_first buf.block[first] (by omega)
    have hb : ∀ j, b1.block[j]? = if d_first = j then buf.block[first]? else buf.block[j]? := by
      intro j; rw [hb1, set_getElem_opt _ _ _ (by omega), hx]
    obtain ⟨r, hr, hlen, hget⟩ :=
      ih b1 (first + 1) (d_first + 1) (by omega) (by rw [hb1, List.length_set]; omega)
    refine ⟨r, ?_, ?_, fun i => ?_⟩
    · simp only [copy_within_loop, read_block _ _ _ hx, hw, ok_bind, hr]
    · rw [hlen, hb1, List.length_set]
    · rw [hget]
      by_cases h4 : d_first + 1 ≤ i ∧ i < d_first + 1 + n
      · rw [if_pos h4, if_pos (by omega), hb, if_neg (by omega)]
        have : first + 1 + (i - (d_first + 1)) = first + (i - d_first) := by omega
        rw [this]
      · rw [if_neg h4, hb]
        by_cases h3 : d_first = i
        · have : first + (i - d_first) = first := by omega
          rw [if_pos h3, if_pos (by omega), this]
        · rw [if_neg h3, if_neg (by omega)]

theorem init_loop_block (l : List α) :
    ∀ (buf : ArrayPtr α) (s : Nat), s + l.length ≤ buf.block.length →
      ∃ r, init_loop l buf s = Except.ok r ∧ r.block.length = buf.block.length ∧
        ∀ i, r.block[i]? =
          if s ≤ i ∧ i < s + l.length then l[i - s]? else buf.block[i]? := by
  induction l with
  | nil =>
    intro buf s _
    refine ⟨buf, rfl, rfl, fun i => ?_⟩
    rw [if_neg (by simp only [List.length_nil]; omega)]
  | cons a l ih =>
    intro buf s h
    simp only [List.length_cons] at h
    obtain ⟨b1, hw, hb1⟩ := write_block buf s a (by omega)
    have hb : ∀ j, b1.block[j]? = if s = j then some a else buf.block[j]? := by
      intro j; rw [hb1, set_getElem_opt _ _ _ (by omega)]
    obtain ⟨r, hr, hlen, hget⟩ := ih b1 (s + 1) (by rw [hb1, List.length_set]; omega)
    refine ⟨r, ?_, ?_, fun i => ?_⟩
    · simp only [init_loop, hw, ok_bind, hr]
    · rw [hlen, hb1, List.length_set]
    · rw [hget]
      simp only [List.length_cons]
      by_cases h2 : s + 1 ≤ i ∧ i < s + 1 + l.length
      · rw [if_pos h2, if_pos (by omega)]
        obtain ⟨k, hk⟩ : ∃ k, i - s = k + 1 := ⟨i - s - 1, by omega⟩
        have : i - (s + 1) = k := by omega
        rw [hk, this, List.getElem?_cons_succ]
      · rw [if_neg h2, hb]
        by_cases h1 : s = i
        · have : i - s = 0 := by omega
          rw [if_pos h1, if_pos (by omega), this, List.getElem?_cons_zero]
        · rw [if_neg h1, if_neg (by omega)]

theorem std_copy_block (src : ArrayPtr α) (first last : Nat) (dst : ArrayPtr α) (d_first : Nat)
    (h1 : first ≤ last) (h2 : last ≤ src.block.length)
    (h3 : d_first + (last - first) ≤ dst.block.length) :
    ∃ r, std_copy src first last dst d_first = Except.ok r ∧
      r.block.length = dst.block.length ∧
      ∀ i, r.block[i]? =
        if d_first ≤ i ∧ i < d_first + (last - first) then src.block[first + (i - d_first)]?
        else dst.block[i]? := by
  unfold std_copy
  exact copy_loop_block src (last - first) first dst d_first (by omega) h3

theorem std_copy_within_block (buf : ArrayPtr α) (first last d_first : Nat)
    (h0 : d_first ≤ first) (h1 : first ≤ last) (h2 : last ≤ buf.block.length) :
    ∃ r, std_copy_within buf first last d_first = Except.ok r ∧
      r.block.length = buf.block.length ∧
      ∀ i, r.block[i]? =
        if d_first ≤ i ∧ i < d_first + (last - first) then buf.block[first + (i - d_first)]?
        else buf.block[i]? := by
  unfold std_copy_within
  exact copy_within_loop_block (last - first) buf first d_first h0 (by omega)

theorem toList_getElem_opt (v : SimpleVector α) (i : Nat) :
    v.toList[i]? = if i < v.size_ then v.items_.block[i]? else none := by
  unfold toList
  rw [List.getElem?_take]

theorem toList_length (v : SimpleVector α) (h : v.size_ ≤ v.items_.block.length) :
    v.toList.length = v.size_ := by
  unfold toList
  rw [List.length_take]
  omega

theorem list_erase_ext (L xs : List α) (p : Nat) (hp : p ≤ xs.length)
    (h : ∀ i, L[i]? = if i < p then xs[i]? else xs[i + 1]?) :
    L = xs.take p ++ xs.drop (p + 1) := by
  apply List.ext_getElem?
  intro i
  rw [h, List.getElem?_append, List.length_take, Nat.min_eq_left hp, List.getElem?_take]
  by_cases h1 : i < p
  · rw [if_pos h1, if_pos h1, if_pos h1]
  · rw [if_neg h1, if_neg h1, List.getElem?_drop]
    have : p + 1 + (i - p) = i + 1 := by omega
    rw [this]

theorem Erase_spec (v : SimpleVector α) (p : Nat) (hwf : WF v) (hp : p < v.size_) :
    ∃ r, Erase v p = Except.ok (r, p) ∧ Erase_move v p = Except.ok (r, p) ∧
      WF r ∧ r.size_ = v.size_ - 1 ∧ r.capacity_ = v.capacity_ ∧
      r.toList = v.toList.take p ++ v.toList.drop (p + 1) := by
  obtain ⟨hs, hl⟩ := hwf
  have hv : v.size_ ≤ v.items_.block.length := by omega
  obtain ⟨b, hb, hbl, hbg⟩ := std_copy_within_block v.items_ (p + 1) v.size_ p
    (by omega) (by omega) hv
  have hguard : 0 < v.size_ ∧ p ≤ v.size_ := ⟨by omega, by omega⟩
  refine ⟨⟨v.size_ - 1, v.capacity_, b⟩, ?_, ?_, ⟨?_, ?_⟩, rfl, rfl, ?_⟩
  · unfold Erase
    rw [if_pos hguard, hb, ok_bind, pure_eq_ok]
  · unfold Erase_move
    rw [if_pos hguard, hb, ok_bind, pure_eq_ok]
  · show v.size_ - 1 ≤ v.capacity_
    omega
  · show b.block.length = v.capacity_
    rw [hbl, hl]
  · apply list_erase_ext _ _ _ (by rw [toList_length v hv]; omega)
    intro i
    rw [toList_getElem_opt, toList_getElem_opt, toList_getElem_opt]
    show (if i < v.size_ - 1 then b.block[i]? else none) = _
    rw [hbg]
    by_cases h1 : i < p
    · rw [if_pos (by omega), if_neg (by omega), if_pos h1, if_pos (by omega)]
    · rw [if_neg h1]
      by_cases h2 : i < v.size_ - 1
      · have : p + 1 + (i - p) = i + 1 := by omega
        rw [if_pos h2, if_pos (by omega), if_pos (by omega), this]
      · rw [if_neg h2, if_neg (by omega)]

theorem ofSizeValue_spec [Inhabited α] (n : Nat) (x : α) :
    ∃ r, ofSizeValue n x = Except.ok r ∧ r.size_ = n ∧ r.capacity_ = n ∧
      r.items_.block = List.replicate n x := by
  obtain ⟨b, hb, hbl, hbg⟩ := fill_loop_block n x (ArrayPtr.ofSize n : ArrayPtr α) 0
    (by rw [block_ofSize, List.length_replicate]; omega)
  refine ⟨⟨n, n, b⟩, ?_, rfl, rfl, ?_⟩
  · unfold ofSizeValue
    rw [hb, ok_bind, pure_eq_ok]
  · show b.block = _
    apply List.ext_getElem?
    intro i
    rw [hbg, List.getElem?_replicate, block_ofSize, List.getElem?_replicate]
    by_cases h : i < n
    · rw [if_pos (by omega), if_pos h]
    · rw [if_neg (by omega), if_neg h, if_neg h]

theorem ofSize_spec [Inhabited α] (n : Nat) :
    ∃ r : SimpleVector α, ofSize n = Except.ok r ∧ r.size_ = n ∧ r.capacity_ = n ∧
      r.items_.block = List.replicate n default :=
  ofSizeValue_spec n default

theorem ofList_spec [Inhabited α] (l : List α) :
    ∃ r, ofList l = Except.ok r ∧ r.size_ = l.length ∧ r.capacity_ = l.length ∧
      r.items_.block = l := by
  obtain ⟨b, hb, hbl, hbg⟩ := init_loop_block l (ArrayPtr.ofSize l.length : ArrayPtr α) 0
    (by rw [block_ofSize, List.length_replicate]; omega)
  refine ⟨⟨l.length, l.length, b⟩, ?_, rfl, rfl, ?_⟩
  · unfold ofList
    rw [hb, ok_bind, pure_eq_ok]
  · show b.block = _
    apply List.ext_getElem?
    intro i
    rw [hbg, block_ofSize, List.getElem?_replicate]
    by_cases h : i < l.length
    · rw [if_pos (by omega), Nat.sub_zero]
    · rw [if_neg (by omega), if_neg h]
      symm
      exact List.getElem?_eq_none (by omega)

theorem Reserve_spec [Inhabited α] (v : SimpleVector α) (c : Nat) (hwf : WF v) :
    ∃ r, v.Reserve c = Except.ok r ∧ WF r ∧ r.size_ = v.size_ ∧ r.toList = v.toList ∧
      r.capacity_ = (if c ≤ v.capacity_ then v.capacity_ else c) ∧
      (c ≤ v.capacity_ → r.items_.block = v.items_.block) := by
  obtain ⟨hs, hl⟩ := hwf
  have hv : v.size_ ≤ v.items_.block.length := by omega
  obtain ⟨t, ht, hts, htc, htb⟩ := ofSizeValue_spec c (default : α)
  have ht : (ofSize c : Res (SimpleVector α)) = Except.ok t := ht
  unfold SimpleVector.Reserve
  by_cases h0 : v.capacity_ = 0
  · rw [if_pos h0, ht, ok_bind]
    have hs0 : v.size_ = 0 := by omega
    refine ⟨⟨0, t.capacity_, t.items_⟩, rfl, ⟨Nat.zero_le _, ?_⟩, hs0.symm, ?_, ?_, ?_⟩
    · show t.items_.block.length = t.capacity_
      rw [htb, List.length_replicate, htc]
    · show t.items_.block.take 0 = v.items_.block.take v.size_
      rw [hs0]; rfl
    · show t.capacity_ = _
      rw [htc, h0]
      split <;> omega
    · intro hc
      have hc0 : c = 0 := by omega
      show t.items_.block = v.items_.block
      rw [htb, hc0]
      symm
      apply List.eq_nil_of_length_eq_zero
      omega
  · rw [if_neg h0]
    by_cases h1 : v.capacity_ < c
    · have hc1 : ¬ c ≤ v.capacity_ := by omega
      rw [if_pos h1, if_neg hc1, ht, ok_bind]
      obtain ⟨b, hb, hbl, hbg⟩ := std_copy_block v.items_ 0 v.size_ t.items_ 0 (Nat.zero_le _)
        hv (by rw [htb, List.length_replicate]; omega)
      rw [hb, ok_bind]
      refine ⟨⟨v.size_, t.capacity_, b⟩, rfl, ⟨?_, ?_⟩, rfl, ?_, htc, ?_⟩
      · show v.size_ ≤ t.capacity_
        omega
      · show b.block.length = t.capacity_
        rw [hbl, htb, List.length_replicate, htc]
      · apply List.ext_getElem?
        intro i
        rw [toList_getElem_opt, toList_getElem_opt]
        show (if i < v.size_ then b.block[i]? else none) = _
        by_cases h3 : i < v.size_
        · rw [if_pos h3, if_pos h3, hbg, if_pos (by omega), Nat.sub_zero, Nat.zero_add]
        · rw [if_neg h3, if_neg h3]
      · intro hc
        omega
    · have hc1 : c ≤ v.capacity_ := by omega
      rw [if_neg h1, if_pos hc1]
      exact ⟨v, rfl, ⟨hs, hl⟩, rfl, rfl, rfl, fun _ => rfl⟩

/-! ### Member functions on the fields `size_` and `capacity_` alone -/

theorem bind_eq_ok {β γ : Type} (m : Res β) (f : β → Res γ) (c : γ)
    (h : (m >>= f) = Except.ok c) : ∃ a, m = Except.ok a ∧ f a = Except.ok c := by
  cases m with
  | error e => exact absurd h (by rw [error_bind]; exact Except.noConfusion)
  | ok a => exact ⟨a, rfl, h⟩

theorem ofSizeValue_fields [Inhabited α] (n : Nat) (x : α) (r : SimpleVector α)
    (h : ofSizeValue n x = Except.ok r) : r.size_ = n ∧ r.capacity_ = n := by
  obtain ⟨r1, hr1, hs, hc, _⟩ := ofSizeValue_spec n x
  rw [hr1] at h
  cases h
  exact ⟨hs, hc⟩

theorem ofList_fields [Inhabited α] (l : List α) (r : SimpleVector α)
    (h : ofList l = Except.ok r) : r.size_ = l.length ∧ r.capacity_ = l.length := by
  obtain ⟨r1, hr1, hs, hc, _⟩ := ofList_spec l
  rw [hr1] at h
  cases h
  exact ⟨hs, hc⟩

theorem copy_fields [Inhabited α] (o r : SimpleVector α) (h : copy o = Except.ok r) :
    r.size_ = o.size_ ∧ r.capacity_ = o.capacity_ := by
  unfold copy at h
  obtain ⟨tmp, htmp, h⟩ := bind_eq_ok _ _ _ h
  obtain ⟨items, _, h⟩ := bind_eq_ok _ _ _ h
  obtain ⟨_, hc⟩ := ofSizeValue_fields _ _ _ htmp
  cases h
  exact ⟨rfl, hc⟩

theorem assign_fields [Inhabited α] (v rhs r : SimpleVector α)
    (h : assign v rhs = Except.ok r) :
    r.size_ = rhs.size_ ∧ r.capacity_ = rhs.capacity_ := by
  unfold assign at h
  obtain ⟨c, hc, h⟩ := bind_eq_ok _ _ _ h
  obtain ⟨_, hcc⟩ := copy_fields _ _ hc
  cases h
  exact ⟨rfl, hcc⟩

theorem Reserve_fields [Inhabited α] (v : SimpleVector α) (n : Nat) (r : SimpleVector α)
    (h : v.Reserve n = Except.ok r) (hinv : v.size_ ≤ v.capacity_) :
    r.size_ ≤ r.capacity_ := by
  unfold SimpleVector.Reserve at h
  by_cases h0 : v.capacity_ = 0
  · rw [if_pos h0] at h
    obtain ⟨tmp, _, h⟩ := bind_eq_ok _ _ _ h
    cases h
    exact Nat.zero_le _
  · rw [if_neg h0] at h
    by_cases h1 : v.capacity_ < n
    · rw [if_pos h1] at h
      obtain ⟨tmp, htmp, h⟩ := bind_eq_ok _ _ _ h
      obtain ⟨items, _, h⟩ := bind_eq_ok _ _ _ h
      obtain ⟨_, hc⟩ := ofSizeValue_fields _ _ _ htmp
      cases h
      show v.size_ ≤ tmp.capacity_
      omega
    · rw [if_neg h1] at h
      cases h
      exact hinv

theorem Resize_fields [Inhabited α] (v : SimpleVector α) (n : Nat) (r : SimpleVector α)
    (h : v.Resize n = Except.ok r) (hinv : v.size_ ≤ v.capacity_) :
    r.size_ ≤ r.capacity_ := by
  unfold SimpleVector.Resize at h
  by_cases h1 : v.size_ < n
  · rw [if_pos h1] at h
    by_cases h2 : n ≤ v.capacity_
    · rw [if_pos h2] at h
      obtain ⟨items, _, h⟩ := bind_eq_ok _ _ _ h
      cases h
      exact h2
    · rw [if_neg h2] at h
      obtain ⟨t1, _, h⟩ := bind_eq_ok _ _ _ h
      obtain ⟨t2, _, h⟩ := bind_eq_ok _ _ _ h
      cases h
      exact Nat.le_max_left _ _
  · rw [if_neg h1] at h
    cases h
    show n ≤ v.capacity_
    omega

theorem NewCapacity_fields [Inhabited α] (v r : SimpleVector α)
    (h : NewCapacity v = Except.ok r) :
    r.size_ = v.size_ ∧ r.capacity_ = (if v.capacity_ = 0 then 1 else v.capacity_ * 2) := by
  unfold NewCapacity at h
  obtain ⟨t, _, h⟩ := bind_eq_ok _ _ _ h
  cases h
  exact ⟨rfl, rfl⟩

theorem grow_fields (v w : SimpleVector α) (hinv : v.size_ ≤ v.capacity_)
    (hlt : ¬ v.size_ < v.capacity_) (hs : w.size_ = v.size_)
    (hc : w.capacity_ = (if v.capacity_ = 0 then 1 else v.capacity_ * 2)) :
    w.size_ + 1 ≤ w.capacity_ := by
  rw [hs, hc]
  split <;> omega

theorem PushBack_fields [Inhabited α] (v : SimpleVector α) (x : Arg α) (r : SimpleVector α)
    (h : v.PushBack x = Except.ok r) (hinv : v.size_ ≤ v.capacity_) :
    r.size_ ≤ r.capacity_ := by
  unfold SimpleVector.PushBack at h
  by_cases hlt : v.size_ < v.capacity_
  · rw [if_pos hlt] at h
    obtain ⟨y, _, h⟩ := bind_eq_ok _ _ _ h
    obtain ⟨items, _, h⟩ := bind_eq_ok _ _ _ h
    cases h
    exact hlt
  · rw [if_neg hlt] at h
    obtain ⟨w, hw, h⟩ := bind_eq_ok _ _ _ h
    obtain ⟨y, _, h⟩ := bind_eq_ok _ _ _ h
    obtain ⟨items, _, h⟩ := bind_eq_ok _ _ _ h
    obtain ⟨hs, hc⟩ := NewCapacity_fields _ _ hw
    cases h
    exact grow_fields v w hinv hlt hs hc

theorem PushBack_move_fields [Inhabited α] (v : SimpleVector α) (x : Arg α)
    (r : SimpleVector α)
    (h : v.PushBack_move x = Except.ok r) (hinv : v.size_ ≤ v.capacity_) :
    r.size_ ≤ r.capacity_ :=
  PushBack_fields v x r h hinv

theorem Insert_fields [Inhabited α] (v : SimpleVector α) (pos : Nat) (x : Arg α)
    (r : SimpleVector α) (it : Nat)
    (h : v.Insert pos x = Except.ok (r, it)) (hinv : v.size_ ≤ v.capacity_) :
    r.size_ ≤ r.capacity_ := by
  unfold SimpleVector.Insert at h
  by_cases hlt : v.size_ < v.capacity_
  · simp only [if_pos hlt] at h
    obtain ⟨b1, _, h⟩ := bind_eq_ok _ _ _ h
    obtain ⟨y, _, h⟩ := bind_eq_ok _ _ _ h
    obtain ⟨b2, _, h⟩ := bind_eq_ok _ _ _ h
    cases h
    exact hlt
  · simp only [if_neg hlt] at h
    obtain ⟨w, hw, h⟩ := bind_eq_ok _ _ _ h
    obtain ⟨b1, _, h⟩ := bind_eq_ok _ _ _ h
    obtain ⟨y, _, h⟩ := bind_eq_ok _ _ _ h
    obtain ⟨b2, _, h⟩ := bind_eq_ok _ _ _ h
    obtain ⟨hs, hc⟩ := NewCapacity_fields _ _ hw
    cases h
    exact grow_fields v w hinv hlt hs hc

theorem Insert_move_fields [Inhabited α] (v : SimpleVector α) (pos : Nat) (x : Arg α)
    (r : SimpleVector α) (it : Nat)
    (h : v.Insert_move pos x = Except.ok (r, it)) (hinv : v.size_ ≤ v.capacity_) :
    r.size_ ≤ r.capacity_ := by
  unfold SimpleVector.Insert_move at h
  by_cases ha : ¬ (pos ≥ 0 ∧ pos ≤ v.size_)
  · rw [if_pos ha] at h
    cases h
  · rw [if_neg ha] at h
    exact Insert_fields v pos x r it h hinv

theorem Erase_fields (v : SimpleVector α) (pos : Nat) (r : SimpleVector α) (it : Nat)
    (h : v.Erase pos = Except.ok (r, it)) (hinv : v.size_ ≤ v.capacity_) :
    r.size_ ≤ r.capacity_ := by
  unfold SimpleVector.Erase at h
  by_cases hg : 0 < v.size_ ∧ pos ≤ v.size_
  · rw [if_pos hg] at h
    obtain ⟨b, _, h⟩ := bind_eq_ok _ _ _ h
    cases h
    show v.size_ - 1 ≤ v.capacity_
    omega
  · rw [if_neg hg] at h
    cases h
    exact hinv

theorem Erase_move_fields (v : SimpleVector α) (pos : Nat) (r : SimpleVector α) (it : Nat)
    (h : v.Erase_move pos = Except.ok (r, it)) (hinv : v.size_ ≤ v.capacity_) :
    r.size_ ≤ r.capacity_ :=
  Erase_fields v pos r it h hinv

theorem Reachable_size_le_capacity [Inhabited α] (v : SimpleVector α) (h : Reachable v) :
    v.size_ ≤ v.capacity_ := by
  induction h with
  | ctor_default => exact Nat.le_refl 0
  | ctor_size n r h =>
    obtain ⟨hs, hc⟩ := ofSizeValue_fields _ _ _ h
    omega
  | ctor_size_value n x r h =>
    obtain ⟨hs, hc⟩ := ofSizeValue_fields _ _ _ h
    omega
  | ctor_list l r h =>
    obtain ⟨hs, hc⟩ := ofList_fields _ _ h
    omega
  | ctor_reserve n => exact Nat.zero_le _
  | ctor_copy o r _ h ih =>
    obtain ⟨hs, hc⟩ := copy_fields _ _ h
    omega
  | ctor_move o _ ih => exact ih
  | moved_from o _ _ => exact Nat.le_refl 0
  | call_Reserve v n r _ h ih => exact Reserve_fields v n r h ih
  | call_Resize v n r _ h ih => exact Resize_fields v n r h ih
  | call_PushBack v x r _ h ih => exact PushBack_fields v x r h ih
  | call_PushBack_move v x r _ h ih => exact PushBack_move_fields v x r h ih
  | call_PopBack v _ ih =>
    unfold SimpleVector.PopBack
    split
    · show v.size_ - 1 ≤ v.capacity_
      omega
    · exact ih
  | call_Clear v _ _ => exact Nat.zero_le _
  | call_swap v other _ _ _ ih2 => exact ih2
  | swapped_with v other _ _ ih1 _ => exact ih1
  | call_assign v rhs r _ _ h _ ih2 =>
    obtain ⟨hs, hc⟩ := assign_fields _ _ _ h
    omega
  | call_assign_self v _ ih => exact ih
  | call_Insert v pos x r it _ _ h ih => exact Insert_fields v pos x r it h ih
  | call_Insert_move v pos x r it _ _ h ih => exact Insert_move_fields v pos x r it h ih
  | call_Erase v pos r it _ _ h ih => exact Erase_fields v pos r it h ih
  | call_Erase_move v pos r it _ _ h ih => exact Erase_move_fields v pos r it h ih

/-! ### Sequences of calls -/

theorem index_of_toList (v : SimpleVector α) (i : Nat) (x : α)
    (h : v.toList[i]? = some x) : v.index i = Except.ok x := by
  rw [toList_getElem_opt] at h
  by_cases hi : i < v.size_
  · rw [if_pos hi] at h
    exact read_block _ _ _ h
  · rw [if_neg hi] at h
    cases h

/-! ### Claims on growth, insertion and removal -/

/-- C3, the code at the failing input `{1, 2, 3, 4}`, `Resize(5)`: the vector is
well-formed before the call; afterwards `GetCapacity()` is `max(5, 2 * 4) = 8` but the
owned block holds 5 elements, and the following `PushBack` (size 5 < capacity 8) stores
outside the block. -/
theorem C3_Resize_block_shorter_than_capacity :
    ofList [1, 2, 3, 4] = Except.ok ex_1234 ∧ WF ex_1234 ∧
    ex_1234.Resize 5 = Except.ok ex_1234_resized ∧
    ex_1234_resized.GetCapacity = max 5 (2 * ex_1234.GetCapacity) ∧
    ex_1234_resized.items_.block.length = 5 ∧
    ex_1234_resized.GetSize < ex_1234_resized.GetCapacity ∧
    ex_1234_resized.PushBack (Arg.value 9) = Except.error Fault.undefined_behaviour :=
  ⟨rfl, by decide, rfl, rfl, rfl, by decide, rfl⟩

/-- C4, the code at the failing input `SimpleVector<int> v(Reserve(1))`: the vector
reports size 0 and capacity 1 but owns no block (`items_` is `nullptr`), and the first
`PushBack` stores through the null pointer. -/
theorem C4_reserve_ctor_owns_no_block :
    (ofReserve (SimpleVec.Reserve 1) : SimpleVector Nat).GetSize = 0 ∧
    (ofReserve (SimpleVec.Reserve 1) : SimpleVector Nat).GetCapacity = 1 ∧
    (ofReserve (SimpleVec.Reserve 1) : SimpleVector Nat).items_.toBool = false ∧
    (ofReserve (SimpleVec.Reserve 1) : SimpleVector Nat).items_.block.length = 0 ∧
    (ofReserve (SimpleVec.Reserve 1) : SimpleVector Nat).PushBack (Arg.value 7) =
      Except.error Fault.undefined_behaviour :=
  ⟨rfl, rfl, rfl, rfl, rfl⟩

/-- C6: on a well-formed vector, `Erase` at offset `p < size` (either overload) succeeds,
returns offset `p`, yields contents `take p xs ++ drop (p + 1) xs`, size `size - 1` and
an unchanged capacity. -/
theorem C6_Erase (v : SimpleVector α) (p : Nat) (hwf : WF v) (hp : p < v.GetSize) :
    ∃ r, v.Erase p = Except.ok (r, p) ∧ v.Erase_move p = Except.ok (r, p) ∧ WF r ∧
      r.toList = v.toList.take p ++ v.toList.drop (p + 1) ∧
      r.GetSize = v.GetSize - 1 ∧ r.GetCapacity = v.GetCapacity := by
  obtain ⟨r, h1, h2, hrwf, hrs, hrc, hrl⟩ := Erase_spec v p hwf hp
  exact ⟨r, h1, h2, hrwf, hrl, hrs, hrc⟩

theorem C6_Erase_witness :
    WF ex_1234 ∧ 1 < ex_1234.GetSize ∧
    ∃ r, ex_1234.Erase 1 = Except.ok (r, 1) ∧ ex_1234.Erase_move 1 = Except.ok (r, 1) ∧
      WF r ∧ r.toList = ex_1234.toList.take 1 ++ ex_1234.toList.drop (1 + 1) ∧
      r.GetSize = ex_1234.GetSize - 1 ∧ r.GetCapacity = ex_1234.GetCapacity :=
  ⟨by decide, by decide, C6_Erase ex_1234 1 (by decide) (by decide)⟩

/-- C9: on a well-formed vector, the method `Reserve(c)` succeeds and keeps the size and
the contents; for `c ≤ capacity` it also keeps the capacity and every element of the
owned block; for `c > capacity` the capacity becomes exactly `c`. The capacity never
shrinks. -/
theorem C9_Reserve [Inhabited α] (v : SimpleVector α) (c : Nat) (hwf : WF v) :
    ∃ r, v.Reserve c = Except.ok r ∧ WF r ∧
      r.GetSize = v.GetSize ∧ r.toList = v.toList ∧ v.GetCapacity ≤ r.GetCapacity ∧
      (c ≤ v.GetCapacity →
        r.GetCapacity = v.GetCapacity ∧ r.items_.block = v.items_.block) ∧
      (v.GetCapacity < c → r.GetCapacity = c) := by
  obtain ⟨r, hr, hrwf, hrs, hrl, hrc, hrb⟩ := Reserve_spec v c hwf
  refine ⟨r, hr, hrwf, hrs, hrl, ?_, ?_, ?_⟩
  · show v.capacity_ ≤ r.capacity_
    rw [hrc]
    split <;> omega
  · intro h
    have h' : c ≤ v.capacity_ := h
    rw [if_pos h'] at hrc
    exact ⟨hrc, hrb h'⟩
  · intro h
    have h' : ¬ c ≤ v.capacity_ := Nat.not_le_of_lt h
    rw [if_neg h'] at hrc
    exact hrc

theorem C9_Reserve_witness :
    WF ex_1234 ∧
    ∃ r, ex_1234.Reserve 6 = Except.ok r ∧ WF r ∧
      r.GetSize = ex_1234.GetSize ∧ r.toList = ex_1234.toList ∧
      ex_1234.GetCapacity ≤ r.GetCapacity ∧
      (6 ≤ ex_1234.GetCapacity →
        r.GetCapacity = ex_1234.GetCapacity ∧ r.items_.block = ex_1234.items_.block) ∧
      (ex_1234.GetCapacity < 6 → r.GetCapacity = 6) :=
  ⟨by decide, C9_Reserve ex_1234 6 (by decide)⟩

theorem At_spec (v : SimpleVector α) (i : Nat) (hb : v.size_ ≤ v.items_.block.length) :
    (v.At i = Except.error Fault.out_of_range ↔ v.size_ ≤ i) ∧
    (i < v.size_ → ∃ x, v.toList[i]? = some x ∧ v.At i = Except.ok x ∧
      v.index i = Except.ok x) := by
  unfold SimpleVector.At SimpleVector.index
  by_cases h : i ≥ v.size_
  · rw [if_pos h]
    exact ⟨⟨fun _ => h, fun _ => rfl⟩, fun hi => absurd hi (Nat.not_lt_of_le h)⟩
  · rw [if_neg h]
    have hi : i < v.items_.block.length := by omega
    have hx : v.items_.block[i]? = some v.items_.block[i] := List.getElem?_eq_getElem hi
    have hr : v.items_.read i = Except.ok v.items_.block[i] := read_block _ _ _ hx
    refine ⟨⟨fun he => ?_, fun hle => absurd hle h⟩, fun hlt => ⟨v.items_.block[i], ?_, hr, hr⟩⟩
    · rw [hr] at he
      cases he
    · rw [toList_getElem_opt, if_pos hlt, hx]

/-- C11: on a well-formed vector `At(i)` throws `std::out_of_range` exactly when
`i ≥ GetSize()`; for `i < GetSize()` it returns the element at logical position `i`, the
one `operator[]` returns. `At` only reads: the vector it is applied to is unchanged. -/
theorem C11_At (v : SimpleVector α) (i : Nat) (hwf : WF v) :
    (v.At i = Except.error Fault.out_of_range ↔ v.GetSize ≤ i) ∧
    (i < v.GetSize → ∃ x, v.toList[i]? = some x ∧ v.At i = Except.ok x ∧
      v.index i = Except.ok x) :=
  At_spec v i (by rw [hwf.2]; exact hwf.1)

theorem C11_At_witness :
    WF ex_123 ∧
    ((ex_123.At 5 = Except.error Fault.out_of_range ↔ ex_123.GetSize ≤ 5) ∧
      (5 < ex_123.GetSize → ∃ x, ex_123.toList[5]? = some x ∧ ex_123.At 5 = Except.ok x ∧
        ex_123.index 5 = Except.ok x)) ∧
    ex_123.At 5 = Except.error Fault.out_of_range ∧ ex_123.At 1 = Except.ok 2 :=
  ⟨by decide, C11_At ex_123 5 (by decide), rfl, rfl⟩

/-- C14: move construction gives the new vector the size, capacity, owned block and hence
the contents of the source, and leaves the source with size 0, capacity 0 and a null
`items_`. -/
theorem C14_move (src : SimpleVector α) :
    (move src).1.GetSize = src.GetSize ∧ (move src).1.GetCapacity = src.GetCapacity ∧
    (move src).1.items_ = src.items_ ∧ (move src).1.toList = src.toList ∧
    (move src).2.GetSize = 0 ∧ (move src).2.GetCapacity = 0 ∧
    (move src).2.items_.raw_ptr_ = none ∧ (move src).2.items_.toBool = false :=
  ⟨rfl, rfl, rfl, rfl, rfl, rfl, rfl, rfl⟩

/-- C17: `SimpleVector(n, x)` has size and capacity `n` and holds `x` at every position
below `n`; `SimpleVector(n)` is the same with the default value; `SimpleVector(l)` has size
and capacity `l.length` and holds the `i`-th element of `l` at position `i`. -/
theorem C17_value_constructors [Inhabited α] (n : Nat) (x : α) (l : List α) :
    (∃ r, ofSizeValue n x = Except.ok r ∧ r.GetSize = n ∧ r.GetCapacity = n ∧
      ∀ i, i < n → r.index i = Except.ok x) ∧
    (∃ r : SimpleVector α, ofSize n = Except.ok r ∧ r.GetSize = n ∧ r.GetCapacity = n ∧
      ∀ i, i < n → r.index i = Except.ok default) ∧
    (∃ r, ofList l = Except.ok r ∧ r.GetSize = l.length ∧ r.GetCapacity = l.length ∧
      ∀ i y, l[i]? = some y → r.index i = Except.ok y) := by
  have key : ∀ y : α, ∃ r, ofSizeValue n y = Except.ok r ∧ r.GetSize = n ∧
      r.GetCapacity = n ∧ ∀ i, i < n → r.index i = Except.ok y := by
    intro y
    obtain ⟨r, hr, hs, hc, hb⟩ := ofSizeValue_spec n y
    refine ⟨r, hr, hs, hc, fun i hi => ?_⟩
    apply read_block
    rw [hb, List.getElem?_replicate, if_pos hi]
  refine ⟨key x, key default, ?_⟩
  obtain ⟨r, hr, hs, hc, hb⟩ := ofList_spec l
  refine ⟨r, hr, hs, hc, fun i y hy => ?_⟩
  apply read_block
  rw [hb]
  exact hy

/-- C18: `Clear()` sets the size to 0 and `PopBack()` lowers a positive size by 1 and does
nothing on an empty vector; both leave the capacity and the owned block as they were. -/
theorem C18_Clear_PopBack (v : SimpleVector α) :
    v.Clear.GetSize = 0 ∧ v.Clear.GetCapacity = v.GetCapacity ∧ v.Clear.items_ = v.items_ ∧
    v.PopBack.GetCapacity = v.GetCapacity ∧ v.PopBack.items_ = v.items_ ∧
    (0 < v.GetSize → v.PopBack.GetSize = v.GetSize - 1) ∧
    (v.GetSize = 0 → v.PopBack = v) ∧
    (∀ i, v.PopBack.index i = v.index i) := by
  have hc : v.PopBack.capacity_ = v.capacity_ := by
    unfold SimpleVector.PopBack
    split <;> rfl
  have hi : v.PopBack.items_ = v.items_ := by
    unfold SimpleVector.PopBack
    split <;> rfl
  refine ⟨rfl, rfl, rfl, hc, hi, ?_, ?_, ?_⟩
  · intro h
    have h0 : v.size_ ≠ 0 := Nat.pos_iff_ne_zero.mp h
    unfold SimpleVector.PopBack
    rw [if_pos h0]
    rfl
  · intro h
    have h0 : ¬ v.size_ ≠ 0 := not_not.mpr h
    unfold SimpleVector.PopBack
    rw [if_neg h0]
  · intro i
    unfold SimpleVector.index
    rw [hi]

/-- C19, the code at the failing input `ArrayPtr<int>(0, 5)`: the constructor stores to
element 0 of a block of 0 elements, while `ArrayPtr<int>(0)` is the empty state. -/
theorem C19_ArrayPtr_zero_size_value :
    ArrayPtr.ofSizeValue 0 (5 : Nat) = Except.error Fault.undefined_behaviour ∧
    (ArrayPtr.ofSize 0 : ArrayPtr Nat).toBool = false ∧
    (ArrayPtr.ofSize 0 : ArrayPtr Nat).block.length = 0 :=
  ⟨rfl, rfl, rfl⟩

/-! ### Comparison operators -/

theorem take_drop_succ (l : List α) (i n : Nat) (h : i < l.length) :
    (l.drop i).take (n + 1) = l[i] :: (l.drop (i + 1)).take n := by
  rw [List.drop_eq_getElem_cons h, List.take_succ_cons]

theorem equal_loop_spec [BEq α] (a b : ArrayPtr α) (n : Nat) :
    ∀ i, i + n ≤ a.block.length → i + n ≤ b.block.length →
      equal_loop a b n i =
        Except.ok (List.beq ((a.block.drop i).take n) ((b.block.drop i).take n)) := by
  induction n with
  | zero =>
    intro i _ _
    rfl
  | succ n ih =>
    intro i ha hb
    have hia : i < a.block.length := by omega
    have hib : i < b.block.length := by omega
    have hra : a.read i = Except.ok a.block[i] :=
      read_block _ _ _ (List.getElem?_eq_getElem hia)
    have hrb : b.read i = Except.ok b.block[i] :=
      read_block _ _ _ (List.getElem?_eq_getElem hib)
    rw [take_drop_succ _ _ _ hia, take_drop_succ _ _ _ hib, List.beq_cons₂]
    simp only [equal_loop, hra, hrb, ok_bind]
    by_cases hxy : (a.block[i] == b.block[i]) = true
    · rw [if_pos hxy, ih (i + 1) (by omega) (by omega), hxy, Bool.true_and]
    · rw [if_neg hxy]
      rw [Bool.not_eq_true] at hxy
      rw [hxy, Bool.false_and]

theorem list_beq_length [BEq α] : ∀ (xs ys : List α), List.beq xs ys = true →
    xs.length = ys.length
  | [], [], _ => rfl
  | [], _ :: _, h => by cases h
  | _ :: _, [], h => by cases h
  | x :: xs, y :: ys, h => by
    rw [List.beq_cons₂, Bool.and_eq_true] at h
    rw [List.length_cons, List.length_cons, list_beq_length xs ys h.2]

theorem eq_spec [BEq α] (a b : SimpleVector α) (ha : a.size_ ≤ a.items_.block.length)
    (hb : b.size_ ≤ b.items_.block.length) :
    a.eq b = Except.ok (List.beq a.toList b.toList) := by
  unfold SimpleVector.eq SimpleVector.GetSize
  by_cases h : a.size_ = b.size_
  · rw [if_pos h, equal_loop_spec _ _ _ 0 (by omega) (by omega)]
    unfold toList
    rw [List.drop_zero, List.drop_zero, h]
  · rw [if_neg h]
    cases hbeq : List.beq a.toList b.toList with
    | false => rfl
    | true =>
      have := list_beq_length _ _ hbeq
      rw [toList_length a ha, toList_length b hb] at this
      exact absurd this h

theorem list_beq_iff [BEq α] : ∀ (xs ys : List α), List.beq xs ys = true ↔
    xs.length = ys.length ∧
      ∀ (i : Nat) (x y : α), xs[i]? = some x → ys[i]? = some y → (x == y) = true
  | [], [] => by
    refine ⟨fun _ => ⟨rfl, fun i x y hx _ => ?_⟩, fun _ => rfl⟩
    cases hx
  | [], _ :: _ => by
    refine ⟨fun h => ?_, fun h => ?_⟩
    · cases h
    · cases h.1
  | _ :: _, [] => by
    refine ⟨fun h => ?_, fun h => ?_⟩
    · cases h
    · cases h.1
  | x :: xs, y :: ys => by
    rw [List.beq_cons₂, Bool.and_eq_true, list_beq_iff xs ys]
    constructor
    · rintro ⟨hxy, hl, hall⟩
      refine ⟨by rw [List.length_cons, List.length_cons, hl], fun i u w hu hw => ?_⟩
      cases i with
      | zero =>
        rw [List.getElem?_cons_zero] at hu hw
        cases hu
        cases hw
        exact hxy
      | succ i =>
        rw [List.getElem?_cons_succ] at hu hw
        exact hall i u w hu hw
    · rintro ⟨hl, hall⟩
      refine ⟨hall 0 x y (List.getElem?_cons_zero) (List.getElem?_cons_zero), ?_,
        fun i u w hu hw => ?_⟩
      · rw [List.length_cons, List.length_cons] at hl
        omega
      · exact hall (i + 1) u w (by rw [List.getElem?_cons_succ]; exact hu)
          (by rw [List.getElem?_cons_succ]; exact hw)

theorem list_beq_refl [BEq α] (hrefl : ∀ x : α, (x == x) = true) :
    ∀ xs : List α, List.beq xs xs = true
  | [] => rfl
  | x :: xs => by
    rw [List.beq_cons₂, hrefl x, list_beq_refl hrefl xs]
    rfl

theorem list_beq_symm [BEq α] (hsymm : ∀ x y : α, (x == y) = (y == x)) :
    ∀ xs ys : List α, List.beq xs ys = List.beq ys xs
  | [], [] => rfl
  | [], _ :: _ => rfl
  | _ :: _, [] => rfl
  | x :: xs, y :: ys => by
    rw [List.beq_cons₂, List.beq_cons₂, hsymm x y, list_beq_symm hsymm xs ys]

theorem ne_spec [BEq α] (a b : SimpleVector α) (ha : a.size_ ≤ a.items_.block.length)
    (hb : b.size_ ≤ b.items_.block.length) :
    a.ne b = Except.ok (!List.beq a.toList b.toList) := by
  unfold SimpleVector.ne
  rw [eq_spec a b ha hb, ok_bind, pure_eq_ok]

theorem WF_stored (v : SimpleVector α) (h : WF v) : v.size_ ≤ v.items_.block.length := by
  rw [h.2]
  exact h.1

/-- C15: on well-formed vectors `a == b` succeeds and is true exactly when the sizes agree
and the elements at every position below the size compare equal; it is determined by the
two logical contents alone (not by the capacities or by the elements of the blocks at or
beyond the size); it is reflexive and symmetric when the element `==` is; and `a != b` is
its negation. -/
theorem C15_equality [BEq α] (a b : SimpleVector α) (ha : WF a) (hb : WF b) :
    ∃ e, a.eq b = Except.ok e ∧
      (e = true ↔ a.GetSize = b.GetSize ∧
        ∀ i, i < a.GetSize → ∃ x y, a.index i = Except.ok x ∧ b.index i = Except.ok y ∧
          (x == y) = true) ∧
      (∀ c d : SimpleVector α, WF c → WF d → c.toList = a.toList → d.toList = b.toList →
        c.eq d = Except.ok e) ∧
      ((∀ x : α, (x == x) = true) → a.eq a = Except.ok true) ∧
      ((∀ x y : α, (x == y) = (y == x)) → b.eq a = Except.ok e) ∧
      a.ne b = Except.ok (!e) := by
  have hsa := WF_stored a ha
  have hsb := WF_stored b hb
  refine ⟨List.beq a.toList b.toList, eq_spec a b hsa hsb, ?_, ?_, ?_, ?_, ne_spec a b hsa hsb⟩
  · rw [list_beq_iff, toList_length a hsa, toList_length b hsb]
    constructor
    · rintro ⟨hl, hall⟩
      refine ⟨hl, fun i hi => ?_⟩
      have hi : i < a.size_ := hi
      have hia : i < a.items_.block.length := by omega
      have hib : i < b.items_.block.length := by
        have : i < b.size_ := by rw [← hl]; exact hi
        omega
      have hxa : a.toList[i]? = some a.items_.block[i] := by
        rw [toList_getElem_opt, if_pos hi, List.getElem?_eq_getElem hia]
      have hxb : b.toList[i]? = some b.items_.block[i] := by
        rw [toList_getElem_opt, if_pos (by rw [← hl]; exact hi), List.getElem?_eq_getElem hib]
      exact ⟨_, _, index_of_toList a i _ hxa, index_of_toList b i _ hxb, hall i _ _ hxa hxb⟩
    · rintro ⟨hl, hall⟩
      refine ⟨hl, fun i x y hx hy => ?_⟩
      have hi : i < a.size_ := by
        by_contra hcon
        rw [toList_getElem_opt, if_neg hcon] at hx
        cases hx
      obtain ⟨u, w, hu, hw, huw⟩ := hall i hi
      rw [index_of_toList a i x hx] at hu
      rw [index_of_toList b i y hy] at hw
      cases hu
      cases hw
      exact huw
  · intro c d hc hd hca hdb
    rw [eq_spec c d (WF_stored c hc) (WF_stored d hd), hca, hdb]
  · intro hrefl
    rw [eq_spec a a hsa hsa, list_beq_refl hrefl]
  · intro hsymm
    rw [eq_spec b a hsb hsa, list_beq_symm hsymm]

theorem C15_equality_witness :
    WF ex_1234 ∧ WF ex_1234_reserved ∧
    (∃ e, ex_1234.eq ex_1234_reserved = Except.ok e ∧
      (e = true ↔ ex_1234.GetSize = ex_1234_reserved.GetSize ∧
        ∀ i, i < ex_1234.GetSize → ∃ x y, ex_1234.index i = Except.ok x ∧
          ex_1234_reserved.index i = Except.ok y ∧ (x == y) = true) ∧
      (∀ c d : SimpleVector Nat, WF c → WF d → c.toList = ex_1234.toList →
        d.toList = ex_1234_reserved.toList → c.eq d = Except.ok e) ∧
      ((∀ x : Nat, (x == x) = true) → ex_1234.eq ex_1234 = Except.ok true) ∧
      ((∀ x y : Nat, (x == y) = (y == x)) → ex_1234_reserved.eq ex_1234 = Except.ok e) ∧
      ex_1234.ne ex_1234_reserved = Except.ok (!e)) ∧
    ex_1234.eq ex_1234_reserved = Except.ok true ∧
    ex_1234.eq ex_123 = Except.ok false :=
  ⟨by decide, by decide, C15_equality ex_1234 ex_1234_reserved (by decide) (by decide),
    rfl, rfl⟩

theorem lex_cons_iff [LinearOrder α] (x y : α) (xs ys : List α) :
    List.Lex (fun u w : α => u < w) (x :: xs) (y :: ys) ↔
      x < y ∨ (x = y ∧ List.Lex (fun u w : α => u < w) xs ys) := by
  constructor
  · intro h
    cases h with
    | cons h => exact Or.inr ⟨rfl, h⟩
    | rel h => exact Or.inl h
  · rintro (h | ⟨rfl, h⟩)
    · exact List.Lex.rel h
    · exact List.Lex.cons h

theorem lexicographical_compare_loop_spec [LinearOrder α] (a b : ArrayPtr α) (n1 : Nat) :
    ∀ n2 i, i + n1 ≤ a.block.length → i + n2 ≤ b.block.length →
      ∃ r, lexicographical_compare_loop a b n1 n2 i = Except.ok r ∧
        (r = true ↔ List.Lex (fun u w : α => u < w)
          ((a.block.drop i).take n1) ((b.block.drop i).take n2)) := by
  induction n1 with
  | zero =>
    intro n2 i _ hb
    cases n2 with
    | zero =>
      refine ⟨false, rfl, ?_⟩
      rw [List.take_zero]
      exact ⟨fun h => Bool.noConfusion h, fun h => absurd h (List.Lex.not_nil_right _ _)⟩
    | succ n2 =>
      have hib : i < b.block.length := by omega
      refine ⟨true, rfl, ?_⟩
      rw [List.take_zero, take_drop_succ _ _ _ hib]
      exact ⟨fun _ => List.Lex.nil, fun _ => rfl⟩
  | succ n1 ih =>
    intro n2 i ha hb
    have hia : i < a.block.length := by omega
    cases n2 with
    | zero =>
      refine ⟨false, rfl, ?_⟩
      rw [List.take_zero]
      exact ⟨fun h => Bool.noConfusion h, fun h => absurd h (List.Lex.not_nil_right _ _)⟩
    | succ n2 =>
      have hib : i < b.block.length := by omega
      have hra : a.read i = Except.ok a.block[i] :=
        read_block _ _ _ (List.getElem?_eq_getElem hia)
      have hrb : b.read i = Except.ok b.block[i] :=
        read_block _ _ _ (List.getElem?_eq_getElem hib)
      rw [take_drop_succ _ _ _ hia, take_drop_succ _ _ _ hib]
      simp only [lexicographical_compare_loop, hra, hrb, ok_bind, lex_cons_iff]
      by_cases h1 : a.block[i] < b.block[i]
      · rw [if_pos h1]
        exact ⟨true, rfl, fun _ => Or.inl h1, fun _ => rfl⟩
      · rw [if_neg h1]
        by_cases h2 : b.block[i] < a.block[i]
        · rw [if_pos h2]
          refine ⟨false, rfl, fun h => Bool.noConfusion h, fun h => ?_⟩
          rcases h with h | ⟨h, _⟩
          · exact absurd h h1
          · rw [h] at h2
            exact absurd h2 (lt_irrefl _)
        · rw [if_neg h2]
          obtain ⟨r, hr, hiff⟩ := ih n2 (i + 1) (by omega) (by omega)
          have hxy : a.block[i] = b.block[i] :=
            le_antisymm (not_lt.mp h2) (not_lt.mp h1)
          refine ⟨r, hr, ?_⟩
          rw [hiff]
          exact ⟨fun h => Or.inr ⟨hxy, h⟩, fun h => h.elim (fun h => absurd h h1) (fun h => h.2)⟩

theorem lt_spec [LinearOrder α] (a b : SimpleVector α) (ha : a.size_ ≤ a.items_.block.length)
    (hb : b.size_ ≤ b.items_.block.length) :
    a.lt b = Except.ok (decide (List.Lex (fun u w : α => u < w) a.toList b.toList)) := by
  obtain ⟨r, hr, hiff⟩ := lexicographical_compare_loop_spec a.items_ b.items_ a.size_ b.size_ 0
    (by omega) (by omega)
  rw [List.drop_zero, List.drop_zero] at hiff
  unfold SimpleVector.lt
  rw [hr]
  congr 1
  cases r with
  | true => exact (decide_eq_true (hiff.mp rfl)).symm
  | false =>
    have : ¬ List.Lex (fun u w : α => u < w) a.toList b.toList := fun h => by
      have := hiff.mpr h
      cases this
    exact (decide_eq_false this).symm


theorem list_beq_iff_eq [BEq α] [LawfulBEq α] (xs ys : List α) :
    List.beq xs ys = true ↔ xs = ys := by
  show (xs == ys) = true ↔ xs = ys
  exact beq_iff_eq

theorem lex_append_nonempty [LinearOrder α] (t : List α) (ht : t ≠ []) :
    ∀ xs : List α, List.Lex (fun u w : α => u < w) xs (xs ++ t)
  | [] => by
    cases t with
    | nil => exact absurd rfl ht
    | cons y t => exact List.Lex.nil
  | x :: xs => List.Lex.cons (lex_append_nonempty t ht xs)

theorem le_spec [LinearOrder α] (a b : SimpleVector α) (ha : a.size_ ≤ a.items_.block.length)
    (hb : b.size_ ≤ b.items_.block.length) :
    a.le b = Except.ok
      (if decide (List.Lex (fun u w : α => u < w) a.toList b.toList) = true then true
        else List.beq a.toList b.toList) := by
  unfold SimpleVector.le
  rw [lt_spec a b ha hb, ok_bind]
  split
  · rfl
  · exact eq_spec a b ha hb

theorem ge_spec [LinearOrder α] (a b : SimpleVector α) (ha : a.size_ ≤ a.items_.block.length)
    (hb : b.size_ ≤ b.items_.block.length) :
    a.ge b = Except.ok
      (if decide (List.Lex (fun u w : α => u < w) b.toList a.toList) = true then true
        else List.beq a.toList b.toList) := by
  unfold SimpleVector.ge SimpleVector.gt
  have h := lt_spec b a hb ha
  unfold SimpleVector.lt at h
  rw [h, ok_bind]
  split
  · rfl
  · exact eq_spec a b ha hb

/-- C16: for a linearly ordered element type and well-formed vectors, `a < b` succeeds and
is true exactly when the contents of `a` come strictly before those of `b` in the
lexicographic order (in particular when `a` is a proper prefix of `b`); `<` is irreflexive
and transitive; exactly one of `a < b`, `a == b`, `b < a` is true; and `a > b` is `b < a`,
`a <= b` is the negation of `b < a`, `a >= b` is the negation of `a < b`. -/
theorem C16_ordering [LinearOrder α] (a b c : SimpleVector α) (ha : WF a) (hb : WF b)
    (hc : WF c) :
    ∃ lab lba eab, a.lt b = Except.ok lab ∧ b.lt a = Except.ok lba ∧
      a.eq b = Except.ok eab ∧
      (lab = true ↔ List.Lex (fun u w : α => u < w) a.toList b.toList) ∧
      ((∃ t, t ≠ [] ∧ b.toList = a.toList ++ t) → lab = true) ∧
      a.lt a = Except.ok false ∧
      (lab = true → b.lt c = Except.ok true → a.lt c = Except.ok true) ∧
      ((lab = true ∧ eab = false ∧ lba = false) ∨ (lab = false ∧ eab = true ∧ lba = false) ∨
        (lab = false ∧ eab = false ∧ lba = true)) ∧
      a.gt b = Except.ok lba ∧ a.le b = Except.ok (!lba) ∧ a.ge b = Except.ok (!lab) := by
  have hsa := WF_stored a ha
  have hsb := WF_stored b hb
  have hsc := WF_stored c hc
  have hirr : ∀ xs : List α, ¬ List.Lex (fun u w : α => u < w) xs xs :=
    fun xs => irrefl_of (List.Lex (fun u w : α => u < w)) xs
  have hasymm : ∀ xs ys : List α, List.Lex (fun u w : α => u < w) xs ys →
      ¬ List.Lex (fun u w : α => u < w) ys xs :=
    fun xs ys h1 h2 => hirr xs (trans_of (List.Lex (fun u w : α => u < w)) h1 h2)
  have htri := trichotomous_of (List.Lex (fun u w : α => u < w)) a.toList b.toList
  have heq : List.beq a.toList b.toList = true ↔ a.toList = b.toList :=
    list_beq_iff_eq a.toList b.toList
  have hgt : a.gt b = b.lt a := rfl
  refine ⟨_, _, _, lt_spec a b hsa hsb, lt_spec b a hsb hsa, eq_spec a b hsa hsb,
    decide_eq_true_iff, ?_, ?_, ?_, ?_, ?_, ?_, ?_⟩
  · rintro ⟨t, ht, hbt⟩
    rw [hbt]
    exact decide_eq_true (lex_append_nonempty t ht a.toList)
  · rw [lt_spec a a hsa hsa, decide_eq_false (hirr a.toList)]
  · intro hab hbc
    rw [lt_spec b c hsb hsc] at hbc
    have hbc : decide (List.Lex (fun u w : α => u < w) b.toList c.toList) = true :=
      Except.ok.inj hbc
    rw [lt_spec a c hsa hsc]
    exact congrArg Except.ok (decide_eq_true
      (trans_of (List.Lex (fun u w : α => u < w)) (of_decide_eq_true hab)
        (of_decide_eq_true hbc)))
  · rcases htri with h | h | h
    · refine Or.inl ⟨decide_eq_true h, ?_, decide_eq_false (hasymm _ _ h)⟩
      rw [Bool.eq_false_iff]
      intro he
      rw [heq.mp he] at h
      exact hirr _ h
    · refine Or.inr (Or.inl ⟨decide_eq_false ?_, heq.mpr h, decide_eq_false ?_⟩)
      · rw [h]; exact hirr _
      · rw [h]; exact hirr _
    · refine Or.inr (Or.inr ⟨decide_eq_false (hasymm _ _ h), ?_, decide_eq_true h⟩)
      rw [Bool.eq_false_iff]
      intro he
      rw [heq.mp he] at h
      exact hirr _ h
  · rw [hgt]
    exact lt_spec b a hsb hsa
  · rw [le_spec a b hsa hsb]
    congr 1
    rcases htri with h | h | h
    · rw [if_pos (decide_eq_true h), decide_eq_false (hasymm _ _ h)]
      rfl
    · have h1 : ¬ List.Lex (fun u w : α => u < w) a.toList b.toList := by rw [h]; exact hirr _
      have h2 : ¬ List.Lex (fun u w : α => u < w) b.toList a.toList := by rw [h]; exact hirr _
      rw [decide_eq_false h1, decide_eq_false h2, heq.mpr h]
      rfl
    · have h1 := hasymm _ _ h
      have h3 : List.beq a.toList b.toList = false := by
        rw [Bool.eq_false_iff]
        intro he
        rw [heq.mp he] at h
        exact hirr _ h
      rw [decide_eq_false h1, decide_eq_true h, h3]
      rfl
  · rw [ge_spec a b hsa hsb]
    congr 1
    rcases htri with h | h | h
    · have h1 := hasymm _ _ h
      have h3 : List.beq a.toList b.toList = false := by
        rw [Bool.eq_false_iff]
        intro he
        rw [heq.mp he] at h
        exact hirr _ h
      rw [decide_eq_false h1, decide_eq_true h, h3]
      rfl
    · have h1 : ¬ List.Lex (fun u w : α => u < w) a.toList b.toList := by rw [h]; exact hirr _
      have h2 : ¬ List.Lex (fun u w : α => u < w) b.toList a.toList := by rw [h]; exact hirr _
      rw [decide_eq_false h1, decide_eq_false h2, heq.mpr h]
      rfl
    · rw [if_pos (decide_eq_true h), decide_eq_false (hasymm _ _ h)]
      rfl

theorem C16_ordering_witness :
    WF ex_123 ∧ WF ex_1234 ∧ WF ex_78 ∧
    (∃ lab lba eab, ex_123.lt ex_1234 = Except.ok lab ∧ ex_1234.lt ex_123 = Except.ok lba ∧
      ex_123.eq ex_1234 = Except.ok eab ∧
      (lab = true ↔ List.Lex (fun u w : Nat => u < w) ex_123.toList ex_1234.toList) ∧
      ((∃ t, t ≠ [] ∧ ex_1234.toList = ex_123.toList ++ t) → lab = true) ∧
      ex_123.lt ex_123 = Except.ok false ∧
      (lab = true → ex_1234.lt ex_78 = Except.ok true → ex_123.lt ex_78 = Except.ok true) ∧
      ((lab = true ∧ eab = false ∧ lba = false) ∨ (lab = false ∧ eab = true ∧ lba = false) ∨
        (lab = false ∧ eab = false ∧ lba = true)) ∧
      ex_123.gt ex_1234 = Except.ok lba ∧ ex_123.le ex_1234 = Except.ok (!lba) ∧
      ex_123.ge ex_1234 = Except.ok (!lab)) ∧
    ex_123.lt ex_1234 = Except.ok true ∧ ex_1234.lt ex_78 = Except.ok true ∧
    ex_123.lt ex_78 = Except.ok true ∧ ex_123.le ex_1234 = Except.ok true ∧
    ex_123.ge ex_1234 = Except.ok false :=
  ⟨by decide, by decide, by decide,
    C16_ordering ex_123 ex_1234 ex_78 (by decide) (by decide) (by decide),
    rfl, rfl, rfl, rfl, rfl⟩

/-! ### Successful calls keep the logical contents inside the owned block -/

theorem write_ok (p : ArrayPtr α) (i : Nat) (x : α) (r : ArrayPtr α)
    (h : p.write i x = Except.ok r) : i < p.block.length ∧ r.block.length = p.block.length := by
  by_cases hi : i < p.block.length
  · obtain ⟨r1, hr1, hb⟩ := write_block p i x hi
    rw [hr1] at h
    cases h
    exact ⟨hi, by rw [hb, List.length_set]⟩
  · unfold ArrayPtr.write at h
    cases hp : p.raw_ptr_ with
    | none =>
      rw [hp] at h
      cases h
    | some blk =>
      rw [hp] at h
      have hi2 : ¬ i < blk.length := by
        unfold ArrayPtr.block at hi
        rw [hp] at hi
        exact hi
      simp only [if_neg hi2] at h
      cases h

theorem fill_loop_ok (x : α) (n : Nat) :
    ∀ (buf : ArrayPtr α) (first : Nat) (r : ArrayPtr α),
      fill_loop n buf first x = Except.ok r →
      r.block.length = buf.block.length ∧ (0 < n → first + n ≤ buf.block.length) := by
  induction n with
  | zero =>
    intro buf first r h
    cases h
    exact ⟨rfl, fun h0 => absurd h0 (Nat.lt_irrefl 0)⟩
  | succ n ih =>
    intro buf first r h
    obtain ⟨b1, hw, h⟩ := bind_eq_ok _ _ _ h
    obtain ⟨hi, hl⟩ := write_ok _ _ _ _ hw
    obtain ⟨hl2, hn⟩ := ih b1 (first + 1) r h
    refine ⟨by rw [hl2, hl], fun _ => ?_⟩
    by_cases h0 : 0 < n
    · have := hn h0
      omega
    · omega

theorem copy_loop_ok (src : ArrayPtr α) (n : Nat) :
    ∀ (first : Nat) (dst : ArrayPtr α) (d_first : Nat) (r : ArrayPtr α),
      copy_loop src n first dst d_first = Except.ok r →
      r.block.length = dst.block.length := by
  induction n with
  | zero =>
    intro first dst d_first r h
    cases h
    rfl
  | succ n ih =>
    intro first dst d_first r h
    obtain ⟨x, _, h⟩ := bind_eq_ok _ _ _ h
    obtain ⟨b1, hw, h⟩ := bind_eq_ok _ _ _ h
    rw [ih _ _ _ _ h, (write_ok _ _ _ _ hw).2]

theorem std_copy_ok (src : ArrayPtr α) (first last : Nat) (dst : ArrayPtr α) (d_first : Nat)
    (r : ArrayPtr α) (h : std_copy src first last dst d_first = Except.ok r) :
    r.block.length = dst.block.length := by
  unfold std_copy at h
  exact copy_loop_ok _ _ _ _ _ _ h

theorem copy_within_loop_ok (n : Nat) :
    ∀ (buf : ArrayPtr α) (first d_first : Nat) (r : ArrayPtr α),
      copy_within_loop n buf first d_first = Except.ok r →
      r.block.length = buf.block.length := by
  induction n with
  | zero =>
    intro buf first d_first r h
    cases h
    rfl
  | succ n ih =>
    intro buf first d_first r h
    obtain ⟨x, _, h⟩ := bind_eq_ok _ _ _ h
    obtain ⟨b1, hw, h⟩ := bind_eq_ok _ _ _ h
    rw [ih _ _ _ _ h, (write_ok _ _ _ _ hw).2]

theorem copy_backward_loop_ok (n : Nat) :
    ∀ (buf : ArrayPtr α) (last d_last : Nat) (r : ArrayPtr α),
      copy_backward_loop n buf last d_last = Except.ok r →
      r.block.length = buf.block.length ∧ (0 < n → d_last - 1 < buf.block.length) := by
  induction n with
  | zero =>
    intro buf last d_last r h
    cases h
    exact ⟨rfl, fun h0 => absurd h0 (Nat.lt_irrefl 0)⟩
  | succ n ih =>
    intro buf last d_last r h
    obtain ⟨x, _, h⟩ := bind_eq_ok _ _ _ h
    obtain ⟨b1, hw, h⟩ := bind_eq_ok _ _ _ h
    obtain ⟨hi, hl⟩ := write_ok _ _ _ _ hw
    exact ⟨by rw [(ih _ _ _ _ h).1, hl], fun _ => hi⟩

theorem ofSizeValue_block_ok [Inhabited α] (n : Nat) (x : α) (r : ArrayPtr α)
    (h : ArrayPtr.ofSizeValue n x = Except.ok r) : r.block.length = n := by
  unfold ArrayPtr.ofSizeValue at h
  by_cases hn : 0 < (List.replicate n (default : α)).length
  · simp only [if_pos hn] at h
    cases h
    rw [block_some, List.length_set, List.length_replicate]
  · simp only [if_neg hn] at h
    cases h

theorem Resize_stored [Inhabited α] (v : SimpleVector α) (n : Nat) (r : SimpleVector α)
    (h : v.Resize n = Except.ok r) (hb : v.size_ ≤ v.items_.block.length) :
    r.size_ ≤ r.items_.block.length := by
  unfold SimpleVector.Resize at h
  by_cases h1 : v.size_ < n
  · rw [if_pos h1] at h
    by_cases h2 : n ≤ v.capacity_
    · rw [if_pos h2] at h
      obtain ⟨items, hf, h⟩ := bind_eq_ok _ _ _ h
      obtain ⟨hl, hn⟩ := fill_loop_ok _ _ _ _ _ hf
      cases h
      show n ≤ items.block.length
      have := hn (by omega)
      omega
    · rw [if_neg h2] at h
      obtain ⟨t1, ht1, h⟩ := bind_eq_ok _ _ _ h
      obtain ⟨t2, ht2, h⟩ := bind_eq_ok _ _ _ h
      have hl1 := ofSizeValue_block_ok _ _ _ ht1
      have hl2 := std_copy_ok _ _ _ _ _ _ ht2
      cases h
      show n ≤ t2.block.length
      omega
  · rw [if_neg h1] at h
    cases h
    show n ≤ v.items_.block.length
    omega

theorem copy_stored [Inhabited α] (o r : SimpleVector α) (h : copy o = Except.ok r)
    (hs : o.size_ ≤ o.capacity_) :
    r.size_ ≤ r.items_.block.length ∧ r.items_.block.length = o.capacity_ := by
  unfold copy at h
  obtain ⟨tmp, htmp, h⟩ := bind_eq_ok _ _ _ h
  obtain ⟨items, hc, h⟩ := bind_eq_ok _ _ _ h
  obtain ⟨t, ht, _, _, htb⟩ := ofSizeValue_spec o.capacity_ (default : α)
  have ht2 : (ofSize o.capacity_ : Res (SimpleVector α)) = Except.ok t := ht
  rw [ht2] at htmp
  cases htmp
  have hl := std_copy_ok _ _ _ _ _ _ hc
  rw [htb, List.length_replicate] at hl
  cases h
  constructor
  · show o.size_ ≤ items.block.length
    omega
  · exact hl

theorem assign_stored [Inhabited α] (v rhs r : SimpleVector α)
    (h : assign v rhs = Except.ok r) (hs : rhs.size_ ≤ rhs.capacity_) :
    r.size_ ≤ r.items_.block.length := by
  unfold assign at h
  obtain ⟨c, hc, h⟩ := bind_eq_ok _ _ _ h
  obtain ⟨h1, _⟩ := copy_stored _ _ hc hs
  obtain ⟨h2, _⟩ := copy_fields _ _ hc
  cases h
  show rhs.size_ ≤ c.items_.block.length
  omega

theorem Reserve_stored [Inhabited α] (v : SimpleVector α) (n : Nat) (r : SimpleVector α)
    (h : v.Reserve n = Except.ok r) (hs : v.size_ ≤ v.capacity_)
    (hb : v.size_ ≤ v.items_.block.length) :
    r.size_ ≤ r.items_.block.length := by
  unfold SimpleVector.Reserve at h
  by_cases h0 : v.capacity_ = 0
  · rw [if_pos h0] at h
    obtain ⟨tmp, _, h⟩ := bind_eq_ok _ _ _ h
    cases h
    exact Nat.zero_le _
  · rw [if_neg h0] at h
    by_cases h1 : v.capacity_ < n
    · rw [if_pos h1] at h
      obtain ⟨tmp, htmp, h⟩ := bind_eq_ok _ _ _ h
      obtain ⟨items, hc, h⟩ := bind_eq_ok _ _ _ h
      obtain ⟨t, ht, _, _, htb⟩ := ofSizeValue_spec n (default : α)
      have ht2 : (ofSize n : Res (SimpleVector α)) = Except.ok t := ht
      rw [ht2] at htmp
      cases htmp
      have hl := std_copy_ok _ _ _ _ _ _ hc
      rw [htb, List.length_replicate] at hl
      cases h
      show v.size_ ≤ items.block.length
      omega
    · rw [if_neg h1] at h
      cases h
      exact hb

theorem PushBack_stored [Inhabited α] (v : SimpleVector α) (x : Arg α) (r : SimpleVector α)
    (h : v.PushBack x = Except.ok r) : r.size_ ≤ r.items_.block.length := by
  unfold SimpleVector.PushBack at h
  by_cases hlt : v.size_ < v.capacity_
  · rw [if_pos hlt] at h
    obtain ⟨y, _, h⟩ := bind_eq_ok _ _ _ h
    obtain ⟨items, hw, h⟩ := bind_eq_ok _ _ _ h
    obtain ⟨hi, hl⟩ := write_ok _ _ _ _ hw
    cases h
    show v.size_ + 1 ≤ items.block.length
    omega
  · rw [if_neg hlt] at h
    obtain ⟨w, _, h⟩ := bind_eq_ok _ _ _ h
    obtain ⟨y, _, h⟩ := bind_eq_ok _ _ _ h
    obtain ⟨items, hw, h⟩ := bind_eq_ok _ _ _ h
    obtain ⟨hi, hl⟩ := write_ok _ _ _ _ hw
    cases h
    show w.size_ + 1 ≤ items.block.length
    omega

theorem insert_tail_stored (w : SimpleVector α) (pos : Nat) (rd : ArrayPtr α → Res α)
    (r : SimpleVector α) (it : Nat)
    (h : (std_copy_backward w.items_ pos w.size_ (w.size_ + 1) >>= fun items =>
        rd items >>= fun x => items.write pos x >>= fun items =>
          (pure (⟨w.size_ + 1, w.capacity_, items⟩, pos) : Res (SimpleVector α × Nat)))
        = Except.ok (r, it)) :
    r.size_ ≤ r.items_.block.length := by
  obtain ⟨b1, hb1, h⟩ := bind_eq_ok _ _ _ h
  obtain ⟨y, _, h⟩ := bind_eq_ok _ _ _ h
  obtain ⟨b2, hb2, h⟩ := bind_eq_ok _ _ _ h
  obtain ⟨hi, hl2⟩ := write_ok _ _ _ _ hb2
  unfold std_copy_backward at hb1
  obtain ⟨hl1, hn⟩ := copy_backward_loop_ok _ _ _ _ _ hb1
  cases h
  show w.size_ + 1 ≤ b2.block.length
  by_cases hp : w.size_ ≤ pos
  · omega
  · have := hn (by omega)
    omega

theorem Insert_stored [Inhabited α] (v : SimpleVector α) (pos : Nat) (x : Arg α)
    (r : SimpleVector α) (it : Nat) (h : v.Insert pos x = Except.ok (r, it)) :
    r.size_ ≤ r.items_.block.length := by
  unfold SimpleVector.Insert at h
  by_cases hlt : v.size_ < v.capacity_
  · simp only [if_pos hlt] at h
    exact insert_tail_stored v pos (fun items => x.get items) r it h
  · simp only [if_neg hlt] at h
    obtain ⟨w, _, h⟩ := bind_eq_ok _ _ _ h
    exact insert_tail_stored w pos (fun _ => x.get_released) r it h

theorem Insert_move_stored [Inhabited α] (v : SimpleVector α) (pos : Nat) (x : Arg α)
    (r : SimpleVector α) (it : Nat) (h : v.Insert_move pos x = Except.ok (r, it)) :
    r.size_ ≤ r.items_.block.length := by
  unfold SimpleVector.Insert_move at h
  by_cases ha : ¬ (pos ≥ 0 ∧ pos ≤ v.size_)
  · rw [if_pos ha] at h
    cases h
  · rw [if_neg ha] at h
    exact Insert_stored v pos x r it h

theorem Erase_stored (v : SimpleVector α) (pos : Nat) (r : SimpleVector α) (it : Nat)
    (h : v.Erase pos = Except.ok (r, it)) (hb : v.size_ ≤ v.items_.block.length) :
    r.size_ ≤ r.items_.block.length := by
  unfold SimpleVector.Erase at h
  by_cases hg : 0 < v.size_ ∧ pos ≤ v.size_
  · rw [if_pos hg] at h
    obtain ⟨b, hc, h⟩ := bind_eq_ok _ _ _ h
    unfold std_copy_within at hc
    have hl := copy_within_loop_ok _ _ _ _ _ hc
    cases h
    show v.size_ - 1 ≤ b.block.length
    omega
  · rw [if_neg hg] at h
    cases h
    exact hb

theorem Reachable_stored [Inhabited α] (v : SimpleVector α) (h : Reachable v) :
    v.size_ ≤ v.items_.block.length := by
  induction h with
  | ctor_default => exact Nat.le_refl 0
  | ctor_size n r h =>
    obtain ⟨r1, hr1, hs, _, hb⟩ := ofSizeValue_spec n (default : α)
    have h2 : ofSizeValue n (default : α) = Except.ok r := h
    rw [hr1] at h2
    cases h2
    rw [hb, List.length_replicate, hs]
  | ctor_size_value n x r h =>
    obtain ⟨r1, hr1, hs, _, hb⟩ := ofSizeValue_spec n x
    rw [hr1] at h
    cases h
    rw [hb, List.length_replicate, hs]
  | ctor_list l r h =>
    obtain ⟨r1, hr1, hs, _, hb⟩ := ofList_spec l
    rw [hr1] at h
    cases h
    rw [hb, hs]
  | ctor_reserve n => exact Nat.zero_le _
  | ctor_copy o r ho h _ => exact (copy_stored o r h (Reachable_size_le_capacity o ho)).1
  | ctor_move o _ ih => exact ih
  | moved_from o _ _ => exact Nat.zero_le _
  | call_Reserve v n r hv h ih =>
    exact Reserve_stored v n r h (Reachable_size_le_capacity v hv) ih
  | call_Resize v n r _ h ih => exact Resize_stored v n r h ih
  | call_PushBack v x r _ h _ => exact PushBack_stored v x r h
  | call_PushBack_move v x r _ h _ => exact PushBack_stored v x r h
  | call_PopBack v _ ih =>
    unfold SimpleVector.PopBack
    split
    · show v.size_ - 1 ≤ v.items_.block.length
      omega
    · exact ih
  | call_Clear v _ _ => exact Nat.zero_le _
  | call_swap v other _ _ _ ih2 => exact ih2
  | swapped_with v other _ _ ih1 _ => exact ih1
  | call_assign v rhs r _ hrhs h _ _ =>
    exact assign_stored v rhs r h (Reachable_size_le_capacity rhs hrhs)
  | call_assign_self v _ ih => exact ih
  | call_Insert v pos x r it _ _ h _ => exact Insert_stored v pos x r it h
  | call_Insert_move v pos x r it _ _ h _ => exact Insert_move_stored v pos x r it h
  | call_Erase v pos r it _ _ h ih => exact Erase_stored v pos r it h ih
  | call_Erase_move v pos r it _ _ h ih => exact Erase_stored v pos r it h ih

/-! ### Copying -/

theorem copy_spec [Inhabited α] (o : SimpleVector α) (hs : o.size_ ≤ o.capacity_)
    (hb : o.size_ ≤ o.items_.block.length) :
    ∃ r, copy o = Except.ok r ∧ r.size_ = o.size_ ∧ r.capacity_ = o.capacity_ ∧
      r.items_.block.length = o.capacity_ ∧ r.toList = o.toList := by
  obtain ⟨t, ht, hts, htc, htb⟩ := ofSizeValue_spec o.capacity_ (default : α)
  have ht2 : (ofSize o.capacity_ : Res (SimpleVector α)) = Except.ok t := ht
  obtain ⟨b, hc, hbl, hbg⟩ := std_copy_block o.items_ 0 o.size_ t.items_ 0 (Nat.zero_le _) hb
    (by rw [htb, List.length_replicate]; omega)
  rw [htb, List.length_replicate] at hbl
  refine ⟨⟨o.size_, t.capacity_, b⟩, ?_, rfl, htc, hbl, ?_⟩
  · unfold copy
    rw [ht2, ok_bind, hc, ok_bind]
    rfl
  · apply List.ext_getElem?
    intro i
    rw [toList_getElem_opt, toList_getElem_opt]
    show (if i < o.size_ then b.block[i]? else none) = _
    by_cases hi : i < o.size_
    · have hr : 0 ≤ i ∧ i < 0 + (o.size_ - 0) := by omega
      rw [if_pos hi, if_pos hi, hbg, if_pos hr, Nat.sub_zero, Nat.zero_add]
    · rw [if_neg hi, if_neg hi]

theorem assign_eq_copy [Inhabited α] (v rhs : SimpleVector α) : assign v rhs = copy rhs := by
  unfold assign
  cases hc : copy rhs with
  | error e => rfl
  | ok c =>
    obtain ⟨hsz, _⟩ := copy_fields rhs c hc
    rw [ok_bind]
    show Except.ok (SimpleVector.mk rhs.size_ c.capacity_ c.items_) = Except.ok c
    rw [← hsz]

/-- C13: for every vector a program can hold, the copy constructor succeeds and yields a
vector with the size and capacity of the source, an owned block of exactly that capacity
and the contents of the source, which compares equal to the source when the element `==`
is reflexive; copy assignment from the source to any vector gives that same vector; and
self-assignment leaves the vector as it was. -/
theorem C13_copy [Inhabited α] [BEq α] (src a : SimpleVector α) (hsrc : Reachable src) :
    ∃ r, copy src = Except.ok r ∧ r.GetSize = src.GetSize ∧
      r.GetCapacity = src.GetCapacity ∧ r.items_.block.length = r.GetCapacity ∧
      r.toList = src.toList ∧
      ((∀ x : α, (x == x) = true) → r.eq src = Except.ok true) ∧
      assign a src = Except.ok r ∧ assign_self src = src := by
  have hs := Reachable_size_le_capacity src hsrc
  have hb := Reachable_stored src hsrc
  obtain ⟨r, hr, hrs, hrc, hrb, hrl⟩ := copy_spec src hs hb
  refine ⟨r, hr, hrs, hrc, ?_, hrl, ?_, ?_, rfl⟩
  · show r.items_.block.length = r.capacity_
    rw [hrb, hrc]
  · intro hrefl
    have hrb2 : r.size_ ≤ r.items_.block.length := by omega
    rw [eq_spec r src hrb2 hb, hrl, list_beq_refl hrefl]
  · rw [assign_eq_copy]
    exact hr

theorem C13_copy_witness :
    Reachable ex_1234_resized ∧
    (∃ r, copy ex_1234_resized = Except.ok r ∧ r.GetSize = ex_1234_resized.GetSize ∧
      r.GetCapacity = ex_1234_resized.GetCapacity ∧ r.items_.block.length = r.GetCapacity ∧
      r.toList = ex_1234_resized.toList ∧
      ((∀ x : Nat, (x == x) = true) → r.eq ex_1234_resized = Except.ok true) ∧
      assign ex_78 ex_1234_resized = Except.ok r ∧
      assign_self ex_1234_resized = ex_1234_resized) ∧
    copy ex_1234_resized = Except.ok ⟨5, 8, ⟨some [1, 2, 3, 4, 0, 0, 0, 0]⟩⟩ :=
  have h : Reachable ex_1234_resized :=
    Reachable.call_Resize ex_1234 5 ex_1234_resized
      (Reachable.ctor_list [1, 2, 3, 4] ex_1234 rfl) rfl
  ⟨h, C13_copy ex_1234_resized ex_78 h, rfl⟩

/-! ### The arithmetic of the target on sizes in range -/

theorem ptr_period_le (sz : Nat) : ptr_period sz ≤ 2 ^ 64 :=
  Nat.div_le_self _ _

theorem ptr_add_eq (sz n : Nat) (h : n < ptr_period sz) : ptr_add sz n = n :=
  Nat.mod_eq_of_lt h

theorem ptr_diff_eq (sz n : Nat) (h : 2 * n < ptr_period sz) : ptr_diff sz n = some n := by
  unfold ptr_diff
  rw [ptr_add_eq sz n (by omega), if_pos h]

theorem to_size_t_eq (n : Nat) (h : n < 2 ^ 64) : to_size_t n = n :=
  Nat.mod_eq_of_lt h

theorem bytes_in_range (sz n : Nat) (hsz : 0 < sz) (h : 2 * n < ptr_period sz) :
    ¬ 2 ^ 63 ≤ n * sz := by
  have h1 : 2 * n + 1 ≤ 2 ^ 64 / sz := h
  have h2 : (2 * n + 1) * sz ≤ 2 ^ 64 := (Nat.le_div_iff_mul_le hsz).mp h1
  have h3 : (2 * n + 1) * sz = 2 * (n * sz) + sz := by ring
  omega

theorem ofSize_w64_eq [Inhabited α] (sz n : Nat) (hsz : 0 < sz) (h : 2 * n < ptr_period sz) :
    (ofSize_w64 sz n : Res (ArrayPtr α)) = Except.ok (ArrayPtr.ofSize n) := by
  unfold ofSize_w64
  rw [if_neg (bytes_in_range sz n hsz h)]

theorem ofSizeValue_w64_eq [Inhabited α] (sz n : Nat) (x : α) (hsz : 0 < sz)
    (h : 2 * n < ptr_period sz) : ofSizeValue_w64 sz n x = ArrayPtr.ofSizeValue n x := by
  unfold ofSizeValue_w64
  rw [if_neg (bytes_in_range sz n hsz h)]

theorem Resize_w64_eq [Inhabited α] (sz : Nat) (v : SimpleVector α) (n : Nat) (hsz : 0 < sz)
    (hn : 2 * n < ptr_period sz) (hc : 2 * v.capacity_ < ptr_period sz) :
    v.Resize_w64 sz n = v.Resize n := by
  have hp := ptr_period_le sz
  unfold SimpleVector.Resize_w64 SimpleVector.Resize
  by_cases h1 : v.size_ < n
  · rw [if_pos h1, if_pos h1]
    by_cases h2 : n ≤ v.capacity_
    · rw [if_pos h2, if_pos h2]
      simp only [ptr_add_eq sz n (by omega), ptr_add_eq sz v.size_ (by omega)]
    · rw [if_neg h2, if_neg h2]
      simp only [to_size_t_eq (v.capacity_ * 2) (by omega), ptr_diff_eq sz n hn,
        ptr_diff_eq sz v.size_ (by omega), ofSizeValue_w64_eq sz n default hsz hn,
        Option.getD_some, std_copy, Nat.sub_zero]
  · rw [if_neg h1, if_neg h1]

theorem NewCapacity_w64_eq [Inhabited α] (sz : Nat) (v : SimpleVector α) (hsz : 0 < sz)
    (hs : 2 * v.size_ < ptr_period sz) (hc : 2 * (v.capacity_ * 2 + 1) < ptr_period sz) :
    v.NewCapacity_w64 sz = v.NewCapacity := by
  have hp := ptr_period_le sz
  have hnew : 2 * (if v.capacity_ = 0 then 1 else v.capacity_ * 2) < ptr_period sz := by
    split <;> omega
  have hcap : (if v.capacity_ = 0 then 1 else to_size_t (v.capacity_ * 2)) =
      (if v.capacity_ = 0 then 1 else v.capacity_ * 2) := by
    rw [to_size_t_eq (v.capacity_ * 2) (by omega)]
  unfold SimpleVector.NewCapacity_w64 SimpleVector.NewCapacity
  simp only [hcap, ofSize_w64_eq sz _ hsz hnew, ptr_diff_eq sz v.size_ hs, ok_bind,
    Option.getD_some, std_copy, Nat.sub_zero]

theorem PushBack_w64_eq [Inhabited α] (sz : Nat) (v : SimpleVector α) (item : Arg α)
    (hsz : 0 < sz) (hs : 2 * (v.size_ + 1) < ptr_period sz)
    (hc : 2 * (v.capacity_ * 2 + 1) < ptr_period sz) :
    v.PushBack_w64 sz item = v.PushBack item := by
  have hp := ptr_period_le sz
  unfold SimpleVector.PushBack_w64 SimpleVector.PushBack
  rw [NewCapacity_w64_eq sz v hsz (by omega) hc]
  by_cases hlt : v.size_ < v.capacity_
  · rw [if_pos hlt, if_pos hlt]
    simp only [ptr_add_eq sz v.size_ (by omega), to_size_t_eq (v.size_ + 1) (by omega)]
  · rw [if_neg hlt, if_neg hlt]
    cases hw : v.NewCapacity with
    | error e => rfl
    | ok w =>
      obtain ⟨hws, _⟩ := NewCapacity_fields v w hw
      rw [ok_bind, ok_bind]
      simp only [ptr_add_eq sz w.size_ (by omega), to_size_t_eq (w.size_ + 1) (by omega)]

/-! ### Removal through `memmove` before the end position -/

theorem std_copy_within_memmove_eq (sz : Nat) (buf : ArrayPtr α) (first last d_first : Nat)
    (hsz : 0 < sz) (hfl : first ≤ last) (hl : last ≤ buf.block.length) (hd : d_first ≤ first)
    (hr : buf.block.length * sz < 2 ^ 64) :
    std_copy_within_memmove sz buf first last d_first = std_copy_within buf first last d_first := by
  obtain ⟨n, rfl⟩ : ∃ n, last = first + n := ⟨last - first, by omega⟩
  have hnum : ((first + n : Nat) : Int) - (first : Int) = (n : Int) := by push_cast; ring
  unfold std_copy_within_memmove std_copy_within
  simp only [hnum, Nat.add_sub_cancel_left]
  by_cases hn : n = 0
  · subst hn
    simp [copy_within_loop]
  · have hn0 : ¬ ((n : Int) = 0) := by exact_mod_cast hn
    rw [if_neg hn0]
    have h1 : (first + n) * sz ≤ buf.block.length * sz := Nat.mul_le_mul_right sz hl
    have h2 : (first + n) * sz = first * sz + sz * n := by ring
    have h3 : d_first * sz ≤ first * sz := Nat.mul_le_mul_right sz hd
    have hlt : sz * n < 2 ^ 64 := by omega
    have hbytes : (((sz : Int) * (n : Int)) % 2 ^ 64).toNat = sz * n := by
      have : ((sz : Int) * (n : Int)) % 2 ^ 64 = ((sz * n % 2 ^ 64 : Nat) : Int) := by
        push_cast; rfl
      rw [this, Int.toNat_ofNat, Nat.mod_eq_of_lt hlt]
    unfold memmove_within
    simp only [hbytes, Nat.mul_div_cancel_left n hsz]
    have hb : first * sz + sz * n ≤ buf.block.length * sz ∧
        d_first * sz + sz * n ≤ buf.block.length * sz := ⟨by omega, by omega⟩
    rw [if_pos hb, if_pos hd]

theorem Erase_memmove_eq (sz : Nat) (v : SimpleVector α) (pos : Nat) (hsz : 0 < sz)
    (hp : pos < v.size_) (hb : v.size_ ≤ v.items_.block.length)
    (hr : v.items_.block.length * sz < 2 ^ 64) :
    v.Erase_memmove sz pos = v.Erase pos ∧ v.Erase_move_memmove sz pos = v.Erase_move pos := by
  unfold SimpleVector.Erase_memmove SimpleVector.Erase_move_memmove SimpleVector.Erase
    SimpleVector.Erase_move
  rw [std_copy_within_memmove_eq sz v.items_ (pos + 1) v.size_ pos hsz (by omega) hb (by omega) hr]
  exact ⟨rfl, rfl⟩

/-! ### Calls at which the code leaves the specification -/

/-- C2 (code defect, in the statement of `Resize` that also decides C3). On a 64-bit target
a default-constructed `SimpleVector<int>` accepts `Resize(2 ^ 63 + 2)`: `dist`, the pointer
difference `(items_.Get() + new_size) - items_.Get()`, wraps to 2, a block of 2 elements is
allocated, and `size_` and `capacity_` become `2 ^ 63 + 2`. The following `PushBack(1)`
computes `capacity_ * 2` in `size_t`, which is 4, and returns with size `2 ^ 63 + 3` and
capacity 4: `GetSize() <= GetCapacity()` fails after this step. -/
theorem C2_size_exceeds_capacity_after_wrapped_Resize :
    (SimpleVector.empty : SimpleVector Nat).Resize_w64 sizeof_int (2 ^ 63 + 2) = .ok ex_wrapped ∧
    ex_wrapped.PushBack_w64 sizeof_int (Arg.value 1) = .ok ex_wrapped_pushed ∧
    ¬ (ex_wrapped_pushed.GetSize ≤ ex_wrapped_pushed.GetCapacity) :=
  ⟨rfl, rfl, by decide⟩

/-- C5 (code defect). `SimpleVector<int> v{1, 2, 3}; v.Reserve(4); v.Insert(v.begin(), v[2])`:
the vector is well-formed with contents `[1, 2, 3]` and the value passed is 3, so the
contents after the call should be `[3, 1, 2, 3]`. `Insert` reads its reference argument
only after it has shifted the elements, when `v[2]` holds 2: the contents are
`[2, 1, 2, 3]`. On the full vector `{1, 2, 3}` the argument is read after `NewCapacity()`
has released the block it refers to: undefined behaviour. Both overloads behave so. -/
theorem C5_Insert_element_of_the_vector :
    SimpleVector.ofList [1, 2, 3] = .ok ex_123 ∧ ex_123.Reserve 4 = .ok ex_123_reserved ∧
    WF ex_123_reserved ∧ ex_123_reserved.toList = [1, 2, 3] ∧
    ex_123_reserved.index 2 = .ok 3 ∧
    ex_123_reserved.Insert 0 (Arg.element 2) = .ok (⟨4, 4, ⟨some [2, 1, 2, 3]⟩⟩, 0) ∧
    ex_123_reserved.Insert_move 0 (Arg.element 2) = .ok (⟨4, 4, ⟨some [2, 1, 2, 3]⟩⟩, 0) ∧
    WF ex_123 ∧ ex_123.index 2 = .ok 3 ∧
    ex_123.Insert 0 (Arg.element 2) = .error .undefined_behaviour ∧
    ex_123.Insert_move 0 (Arg.element 2) = .error .undefined_behaviour :=
  ⟨rfl, rfl, by decide, by decide, rfl, rfl, rfl, by decide, rfl, rfl, rfl⟩

/-- C8 (code defect, in the statement of `Resize` that also decides C3). On a 64-bit target
`Resize(2 ^ 62 + 3)` on the well-formed `SimpleVector<int>{7, 8}` returns with size and
capacity `2 ^ 62 + 3`, but `dist` has wrapped to 3 and the owned block holds the three
elements `[7, 8, 0]`: the contents are not `[7, 8]` followed by `2 ^ 62 + 1` default
values. -/
theorem C8_Resize_wrapped_distance :
    SimpleVector.ofList [7, 8] = .ok ex_78 ∧ WF ex_78 ∧ ex_78.GetCapacity < 2 ^ 62 + 3 ∧
    ex_78.Resize_w64 sizeof_int (2 ^ 62 + 3) = .ok ex_78_wrapped ∧
    ex_78_wrapped.GetSize = 2 ^ 62 + 3 ∧
    ex_78_wrapped.toList = [7, 8, 0] :=
  ⟨rfl, by decide, by decide, rfl, rfl, by decide⟩

/-- C12 (code defect, the one of C5). `SimpleVector<int> v{1, 2, 3}; v.PushBack(v[0])`: the
vector is well-formed and full, and the value passed is 1, so the contents after the call
should be `[1, 2, 3, 1]`. `PushBack` reads its reference argument after `NewCapacity()`
has released the block it refers to: undefined behaviour, in both overloads. -/
theorem C12_PushBack_element_of_full_vector :
    SimpleVector.ofList [1, 2, 3] = .ok ex_123 ∧ WF ex_123 ∧ ex_123.GetSize = ex_123.GetCapacity ∧ ex_123.index 0 = .ok 1 ∧
    ex_123.PushBack (Arg.element 0) = .error .undefined_behaviour ∧
    ex_123.PushBack_move (Arg.element 0) = .error .undefined_behaviour :=
  ⟨rfl, by decide, by decide, rfl, rfl, rfl⟩

/-- C20 (code defect). `Erase(end())` on the well-formed, non-empty
`SimpleVector<int>{1, 2, 3, 4}` passes the guard, which reads `pos <= end` where `pos < end`
is meant. The call should then drop the last element and shift nothing. The library is
given the range from `end() + 1` to `end()`; for `int` it computes the count `-1` and asks
`memmove` for `2 ^ 64 - 4` bytes: undefined behaviour, in both overloads. For an element
type copied by the element loop the loop runs zero times and the last element is dropped,
as on `SimpleVector<std::string>{"a", "b", "c"}`. -/
theorem C20_Erase_end_of_int_vector :
    SimpleVector.ofList [1, 2, 3, 4] = .ok ex_1234 ∧ WF ex_1234 ∧ 0 < ex_1234.GetSize ∧
    ex_1234.Erase_memmove sizeof_int ex_1234.GetSize = .error .undefined_behaviour ∧
    ex_1234.Erase_move_memmove sizeof_int ex_1234.GetSize = .error .undefined_behaviour ∧
    SimpleVector.ofList ["a", "b", "c"] = .ok ex_abc ∧ WF ex_abc ∧
    ex_abc.Erase ex_abc.GetSize = .ok (⟨2, 3, ⟨some ["a", "b", "c"]⟩⟩, 3) ∧
    ex_abc.Erase_move ex_abc.GetSize = .ok (⟨2, 3, ⟨some ["a", "b", "c"]⟩⟩, 3) :=
  ⟨rfl, by decide, by decide, rfl, rfl, rfl, by decide, rfl, rfl⟩

end SimpleVec
